import Mathlib

/-!
Verification of the sorting-strategy module (`src/Python/strategy.py`).

The module implements four interchangeable sorting strategies (Selection,
Heap, Quick, Merge) behind a common interface, plus a `Sorter` context that
holds a strategy and an optional data buffer.

Part 1 embeds the code:
  * value-level (functional) embeddings of the four `sorting_algorithm`
    methods and of `MergeSort.merge`, acting on `List Int` (Python number
    sequences are modelled as integer lists);
  * the CPython `heapq.heapify` routine (with its `_siftup` / `_siftdown`
    helpers), which `HeapSort.sorting_algorithm` delegates to; `heapq` is
    the Python standard library, outside this repository, so its reference
    implementation is transcribed here;
  * the `Sorter` context with its optional-argument `sort` method, where a
    `None` data buffer is the Python `None` default and a raised `TypeError`
    is modelled as the `none` result;
  * a small reference/store model (`PyMem`) in which Python list/tuple objects
    live at numeric references, used to express the in-place-mutation and
    object-identity facts of the source (which strategy mutates which
    object, and which strategy returns its argument unchanged).

Part 2 proves helper lemmas, and Part 3 states one theorem per claim.
-/

/-- Embeds `data.pop(data.index(x))`: remove the first occurrence of `x`
from a list, leaving the list unchanged if `x` does not occur. -/
def removeFirst (x : Int) : List Int → List Int
  | [] => []
  | y :: ys => if y = x then ys else y :: removeFirst x ys

/-- Embedding of `SelectionSort.sorting_algorithm`: repeatedly take
`min(data)` (Python's `min` of a nonempty list, folded over the tail with
the head as seed), append it to the result and remove its first occurrence
from the working copy. -/
def SelectionSort.sorting_algorithm : List Int → List Int
  | [] => []
  | x :: xs =>
    let m := xs.foldl min x
    m :: SelectionSort.sorting_algorithm (removeFirst m (x :: xs))
termination_by l => l.length
decreasing_by
  have hmem : ∀ (xs : List Int) (x : Int), xs.foldl min x ∈ x :: xs := by
    intro xs
    induction xs with
    | nil => intro x; simp
    | cons z zs ih =>
      intro x
      have h := ih (min x z)
      simp only [List.foldl_cons]
      rcases List.mem_cons.1 h with h' | h'
      · rcases min_choice x z with hc | hc
        · exact List.mem_cons.2 (Or.inl (h'.trans hc))
        · exact List.mem_cons.2 (Or.inr (List.mem_cons.2 (Or.inl (h'.trans hc))))
      · exact List.mem_cons.2 (Or.inr (List.mem_cons.2 (Or.inr h')))
  have hlen : ∀ (l : List Int) (m : Int), m ∈ l → (removeFirst m l).length < l.length := by
    intro l
    induction l with
    | nil => intro m h; simp at h
    | cons y ys ih =>
      intro m h
      by_cases hy : y = m
      · simp [removeFirst, hy]
      · rcases List.mem_cons.1 h with h' | h'
        · exact absurd h'.symm hy
        · simp only [removeFirst, if_neg hy, List.length_cons]
          exact Nat.succ_lt_succ (ih m h')
  exact hlen _ _ (hmem _ _)

/-- Loop of CPython's `heapq._siftdown(heap, startpos, pos)` after reading
`newitem = heap[pos]`: while `pos > startpos`, compare `newitem` with the
parent at `(pos - 1) >> 1`; if `newitem < parent`, move the parent down to
`pos` and continue from the parent, else stop; finally `heap[pos] = newitem`. -/
def heapq.siftdownAux (startpos : Nat) (newitem : Int) (heap : List Int) (pos : Nat) : List Int :=
  if startpos < pos then
    if newitem < heap.getD ((pos - 1) / 2) 0 then
      heapq.siftdownAux startpos newitem (heap.set pos (heap.getD ((pos - 1) / 2) 0)) ((pos - 1) / 2)
    else heap.set pos newitem
  else heap.set pos newitem
termination_by pos
decreasing_by omega

/-- Embedding of CPython's `heapq._siftdown(heap, startpos, pos)`. -/
def heapq.siftdown (heap : List Int) (startpos pos : Nat) : List Int :=
  heapq.siftdownAux startpos (heap.getD pos 0) heap pos

/-- Descent loop of CPython's `heapq._siftup(heap, pos)`: walk down from
`pos` along the smaller-child path (the right child is chosen when
`not heap[childpos] < heap[rightpos]`), moving each chosen child up to its
parent position, until a position with no left child is reached; returns
the updated list and the final position. -/
def heapq.siftupAux (heap : List Int) (pos : Nat) : List Int × Nat :=
  if h : 2 * pos + 1 < heap.length then
    let childpos :=
      if 2 * pos + 2 < heap.length ∧ ¬ heap.getD (2 * pos + 1) 0 < heap.getD (2 * pos + 2) 0
      then 2 * pos + 2 else 2 * pos + 1
    heapq.siftupAux (heap.set pos (heap.getD childpos 0)) childpos
  else (heap, pos)
termination_by heap.length - pos
decreasing_by
  simp only [List.length_set]
  split
  · omega
  · omega

/-- Embedding of CPython's `heapq._siftup(heap, pos)`: remember
`newitem = heap[pos]`, run the descent loop, store `newitem` at the leaf
position reached, then sift it back down toward `startpos = pos`. -/
def heapq.siftup (heap : List Int) (pos : Nat) : List Int :=
  let newitem := heap.getD pos 0
  let p := heapq.siftupAux heap pos
  heapq.siftdown (p.1.set p.2 newitem) pos p.2

/-- Loop of CPython's `heapq.heapify`: `for i in reversed(range(n//2)): _siftup(x, i)`;
`heapifyAux heap (i + 1)` performs the iterations `i, i - 1, ..., 0`. -/
def heapq.heapifyAux : List Int → Nat → List Int
  | heap, 0 => heap
  | heap, i + 1 => heapq.heapifyAux (heapq.siftup heap i) i

/-- Embedding of CPython's `heapq.heapify(x)` (value of the list after the
in-place transformation). -/
def heapq.heapify (x : List Int) : List Int :=
  heapq.heapifyAux x (x.length / 2)

/-- Embedding of `HeapSort.sorting_algorithm`: copy the input
(`data = list(data)`), heapify the copy in place, and return it. -/
def HeapSort.sorting_algorithm (data : List Int) : List Int :=
  heapq.heapify data

/-- Embedding of `QuickSort.sorting_algorithm`: sequences of length at most
one are returned as given; otherwise the element at index `len(data) // 2`
is the pivot, the input is partitioned by `< pivot`, `== pivot`, `> pivot`,
and the recursively sorted outer groups are concatenated around the middle
group. -/
def QuickSort.sorting_algorithm (data : List Int) : List Int :=
  if h : data.length ≤ 1 then data
  else
    let pivot := data.getD (data.length / 2) 0
    QuickSort.sorting_algorithm (data.filter fun n => decide (n < pivot)) ++
      (data.filter fun n => decide (n = pivot)) ++
      QuickSort.sorting_algorithm (data.filter fun n => decide (n > pivot))
termination_by data.length
decreasing_by
  · have hlt : data.length / 2 < data.length := by omega
    have hmem : data.getD (data.length / 2) 0 ∈ data := by
      rw [List.getD_eq_getElem data 0 hlt]
      exact List.getElem_mem hlt
    refine List.length_filter_lt_length_iff_exists.2 ⟨data.getD (data.length / 2) 0, hmem, ?_⟩
    simp
  · have hlt : data.length / 2 < data.length := by omega
    have hmem : data.getD (data.length / 2) 0 ∈ data := by
      rw [List.getD_eq_getElem data 0 hlt]
      exact List.getElem_mem hlt
    refine List.length_filter_lt_length_iff_exists.2 ⟨data.getD (data.length / 2) 0, hmem, ?_⟩
    simp

/-- Embedding of the body of `MergeSort.merge`: the two-index loop. While
both indices are in range, compare the current heads with the strict
comparison `order = lambda x, y: x < y`; on success append the left head and
advance the left index, otherwise append the right head and advance the
right index; at the end append both remainders (`left[index_left:]` and
`right[index_right:]`). The comparison is a parameter so that the same loop
can be run on any element type. -/
def MergeSort.mergeLoop {α : Type} (lt : α → α → Bool) (left right : List α)
    (il ir : Nat) (result : List α) : List α :=
  if h : il < left.length ∧ ir < right.length then
    if lt (left.get ⟨il, h.1⟩) (right.get ⟨ir, h.2⟩)
    then MergeSort.mergeLoop lt left right (il + 1) ir (result ++ [left.get ⟨il, h.1⟩])
    else MergeSort.mergeLoop lt left right il (ir + 1) (result ++ [right.get ⟨ir, h.2⟩])
  else result ++ left.drop il ++ right.drop ir
termination_by (left.length - il) + (right.length - ir)
decreasing_by
  · omega
  · omega

/-- Embedding of `MergeSort.merge(left, right)` on number sequences: run the
two-index loop with the strict `<` comparison, starting from empty `result`. -/
def MergeSort.merge (left right : List Int) : List Int :=
  MergeSort.mergeLoop (fun x y => decide (x < y)) left right 0 0 []

/-- Embedding of `MergeSort.sorting_algorithm`: length at most one returns a
copy (`list(data)`, the same value); otherwise split at `len(data) // 2`,
sort both halves recursively and merge them. -/
def MergeSort.sorting_algorithm (data : List Int) : List Int :=
  if h : data.length ≤ 1 then data
  else
    MergeSort.merge (MergeSort.sorting_algorithm (data.take (data.length / 2)))
      (MergeSort.sorting_algorithm (data.drop (data.length / 2)))
termination_by data.length
decreasing_by
  · simp only [List.length_take]
    omega
  · simp only [List.length_drop]
    omega

/-- Specification-side merge, written from the spec's words for comparison
with the implementation loop: repeatedly compare the current heads, take
from the left exactly when left-head is strictly less than right-head and
otherwise from the right, and when one sequence is exhausted append the
remainder of the other. -/
def mergeSpec {α : Type} (lt : α → α → Bool) : List α → List α → List α
  | [], r => r
  | a :: l, [] => a :: l
  | a :: l, b :: r =>
    if lt a b then a :: mergeSpec lt l (b :: r) else b :: mergeSpec lt (a :: l) r
termination_by l r => l.length + r.length
decreasing_by
  · simp only [List.length_cons]
    omega
  · simp only [List.length_cons]
    omega

/-- Closed enumeration of the strategy classes implementing `IStrategy`. -/
inductive IStrategy where
  | selection : IStrategy
  | heap : IStrategy
  | quick : IStrategy
  | merge : IStrategy
deriving DecidableEq

/-- Dynamic dispatch of `sorting_algorithm` over the four strategy classes. -/
def IStrategy.sorting_algorithm : IStrategy → List Int → List Int
  | .selection => SelectionSort.sorting_algorithm
  | .heap => HeapSort.sorting_algorithm
  | .quick => QuickSort.sorting_algorithm
  | .merge => MergeSort.sorting_algorithm

/-- Embedding of the `Sorter` context: the current strategy and the data
buffer (`None` at construction unless data is supplied). -/
structure Sorter where
  strategy : IStrategy
  data : Option (List Int)
deriving DecidableEq

/-- Embedding of `Sorter.sort(data=None)`. A supplied argument replaces the
stored buffer only when it is truthy (`if data:`), i.e. a nonempty list;
the strategy is then invoked on the stored buffer. When the buffer is still
`None`, every strategy raises a `TypeError` on it (`list(None)` /
`len(None)`), modelled as result `none`; the `Sorter` is unchanged in that
case because the assignment `self._data = result` is never reached. On
success the result is both stored and returned. -/
def Sorter.sort (s : Sorter) (arg : Option (List Int)) : Option (List Int × Sorter) :=
  let stored : Option (List Int) :=
    match arg with
    | some l => if l = [] then s.data else some l
    | none => s.data
  match stored with
  | none => none
  | some input =>
    let result := s.strategy.sorting_algorithm input
    some (result, { strategy := s.strategy, data := some result })

/-- Occurrence count of a value in a list (multiset view of a sequence). -/
def cnt (x : Int) : List Int → Nat
  | [] => 0
  | y :: ys => (if y = x then 1 else 0) + cnt x ys

/-- Binary min-heap invariant from the spec: the element at index `i` is at
most the elements at indices `2 i + 1` and `2 i + 2` when those exist. -/
def IsMinHeap (l : List Int) : Prop :=
  ∀ i : Nat, (2 * i + 1 < l.length → l.getD i 0 ≤ l.getD (2 * i + 1) 0) ∧
    (2 * i + 2 < l.length → l.getD i 0 ≤ l.getD (2 * i + 2) 0)

/-- PyMembership of index `j` in the subtree rooted at index `i` of the
array-encoded binary tree (parent of `j` is `(j - 1) / 2`). -/
def inSub (i : Nat) (j : Nat) : Bool :=
  if j = i then true
  else if j ≤ i then false
  else inSub i ((j - 1) / 2)
termination_by j
decreasing_by omega

/-- Heap order on the subtree rooted at `i`: every parent-child pair inside
the subtree is ordered. -/
def heapOnSub (l : List Int) (i : Nat) : Prop :=
  ∀ j c : Nat, inSub i j = true → (c = 2 * j + 1 ∨ c = 2 * j + 2) → c < l.length →
    l.getD j 0 ≤ l.getD c 0

/-- Heap order on all nodes with index at least `i` (the invariant of the
`heapify` loop, which has already processed `i, i + 1, ...`). -/
def heapFromIdx (l : List Int) (i : Nat) : Prop :=
  ∀ j c : Nat, i ≤ j → (c = 2 * j + 1 ∨ c = 2 * j + 2) → c < l.length →
    l.getD j 0 ≤ l.getD c 0

/-- Kind tag of a Python sequence object: built by a list display /
comprehension / `list(...)`, or a tuple. -/
inductive SKind where
  | listK : SKind
  | tupleK : SKind
deriving DecidableEq

/-- A Python sequence object: its kind and the numbers it holds. -/
structure PySeq where
  kind : SKind
  elems : List Int
deriving DecidableEq

/-- Object store: sequence objects live at numeric references; `next` is the
next fresh reference. References below `next` are the live objects. -/
structure PyMem where
  mem : Nat → PySeq
  next : Nat

/-- Dereference. -/
def PyMem.read (σ : PyMem) (r : Nat) : PySeq := σ.mem r

/-- In-place update of the object at reference `r`. -/
def PyMem.write (σ : PyMem) (r : Nat) (v : PySeq) : PyMem :=
  ⟨fun j => if j = r then v else σ.mem j, σ.next⟩

/-- Allocate a fresh object, returning the new store and its reference. -/
def PyMem.alloc (σ : PyMem) (v : PySeq) : PyMem × Nat :=
  (⟨fun j => if j = σ.next then v else σ.mem j, σ.next + 1⟩, σ.next)

/-- The empty store. -/
def mem0 : PyMem := ⟨fun _ => ⟨SKind.listK, []⟩, 0⟩

/-- Python's `min` on a nonempty list (fold of `min` over the tail, seeded
with the head); the empty case is never reached by the callers. -/
def pymin : List Int → Int
  | [] => 0
  | x :: xs => xs.foldl min x

/-- Store-level loop of `SelectionSort.sorting_algorithm`: while the working
list at `dataR` is nonempty, append its minimum to the result object at
`resR` (`result.append(...)`) and pop the first occurrence from the working
object (`data.pop(data.index(...))`). The two objects are distinct. -/
def selLoopS (dataR resR : Nat) (hne : dataR ≠ resR) (σ : PyMem) : PyMem :=
  if hm : (σ.read dataR).elems = [] then σ
  else
    let m := pymin (σ.read dataR).elems
    let σ1 := σ.write resR ⟨(σ.read resR).kind, (σ.read resR).elems ++ [m]⟩
    let σ2 := σ1.write dataR ⟨(σ1.read dataR).kind, removeFirst m (σ1.read dataR).elems⟩
    selLoopS dataR resR hne σ2
termination_by (σ.read dataR).elems.length
decreasing_by
  have hlen : ∀ (l : List Int) (m : Int), m ∈ l → (removeFirst m l).length < l.length := by
    intro l
    induction l with
    | nil => intro m h; simp at h
    | cons y ys ih =>
      intro m h
      by_cases hy : y = m
      · simp [removeFirst, hy]
      · rcases List.mem_cons.1 h with h' | h'
        · exact absurd h'.symm hy
        · simp only [removeFirst, if_neg hy, List.length_cons]
          exact Nat.succ_lt_succ (ih m h')
  have hmem : ∀ (xs : List Int) (x : Int), xs.foldl min x ∈ x :: xs := by
    intro xs
    induction xs with
    | nil => intro x; simp
    | cons z zs ih =>
      intro x
      have h := ih (min x z)
      simp only [List.foldl_cons]
      rcases List.mem_cons.1 h with h' | h'
      · rcases min_choice x z with hc | hc
        · exact List.mem_cons.2 (Or.inl (h'.trans hc))
        · exact List.mem_cons.2 (Or.inr (List.mem_cons.2 (Or.inl (h'.trans hc))))
      · exact List.mem_cons.2 (Or.inr (List.mem_cons.2 (Or.inr h')))
  simp only [PyMem.read, PyMem.write]
  simp only [if_neg hne, if_pos rfl, eq_self_iff_true, if_true]
  obtain ⟨x, xs, hE⟩ : ∃ x xs, (σ.mem dataR).elems = x :: xs := by
    cases hEE : (σ.mem dataR).elems with
    | nil => exact absurd hEE hm
    | cons a as => exact ⟨a, as, rfl⟩
  rw [hE]
  exact hlen _ _ (hmem _ _)

/-- Store-level `SelectionSort.sorting_algorithm`: copy the input object
(`data = list(data)`), allocate the empty `result` list, run the loop, and
return the `result` reference. -/
def selectionSortS (σ : PyMem) (input : Nat) : PyMem × Nat :=
  let a1 := σ.alloc ⟨SKind.listK, (σ.read input).elems⟩
  let a2 := a1.1.alloc ⟨SKind.listK, []⟩
  (selLoopS a1.2 a2.2 (by omega : σ.next ≠ σ.next + 1) a2.1, a2.2)

/-- Store-level `heapq.heapify(data)`: the in-place sift operations all
write into the single list object at `r`; their net elementwise effect is
`heapq.heapify` on its contents. -/
def heapifyS (σ : PyMem) (r : Nat) : PyMem :=
  σ.write r ⟨(σ.read r).kind, heapq.heapify (σ.read r).elems⟩

/-- Store-level `HeapSort.sorting_algorithm`: copy the input object
(`data = list(data)`), heapify the copy in place, return its reference. -/
def heapSortS (σ : PyMem) (input : Nat) : PyMem × Nat :=
  let a1 := σ.alloc ⟨SKind.listK, (σ.read input).elems⟩
  (heapifyS a1.1 a1.2, a1.2)

/-- Store-level `QuickSort.sorting_algorithm` (recursion depth bounded by a
fuel parameter; the algorithm never mutates any object, it only reads and
allocates). PySequences of length at most one are returned as the very same
reference, with the store untouched; otherwise the three comprehensions
allocate fresh list objects, the outer two are sorted recursively, and a
fresh list object holds the concatenation. -/
def quickSortS : Nat → PyMem → Nat → PyMem × Nat
  | 0, σ, r => (σ, r)
  | fuel + 1, σ, r =>
    let e := (σ.read r).elems
    if e.length ≤ 1 then (σ, r)
    else
      let pivot := e.getD (e.length / 2) 0
      let a1 := σ.alloc ⟨SKind.listK, e.filter fun n => decide (n < pivot)⟩
      let a2 := a1.1.alloc ⟨SKind.listK, e.filter fun n => decide (n = pivot)⟩
      let a3 := a2.1.alloc ⟨SKind.listK, e.filter fun n => decide (n > pivot)⟩
      let q1 := quickSortS fuel a3.1 a1.2
      let q2 := quickSortS fuel q1.1 a3.2
      q2.1.alloc ⟨SKind.listK,
        (q2.1.read q1.2).elems ++ (q2.1.read a2.2).elems ++ (q2.1.read q2.2).elems⟩

/-- Store-level `MergeSort.merge`: allocate the fresh `result` list and run
the two-index loop, which only ever appends to that fresh object. -/
def mergeS (σ : PyMem) (lR rR : Nat) : PyMem × Nat :=
  let a := σ.alloc ⟨SKind.listK, []⟩
  (a.1.write a.2 ⟨SKind.listK,
      MergeSort.mergeLoop (fun x y => decide (x < y)) (a.1.read lR).elems (a.1.read rR).elems 0 0 []⟩,
    a.2)

/-- Store-level `MergeSort.sorting_algorithm` (fuel-bounded recursion).
Length at most one allocates and returns the fresh copy `list(data)`;
otherwise the two slices allocate fresh objects (a slice of a tuple is a
tuple, so the kind is inherited), both are sorted recursively, and the
results are merged. -/
def mergeSortS : Nat → PyMem → Nat → PyMem × Nat
  | 0, σ, r => (σ, r)
  | fuel + 1, σ, r =>
    let sq := σ.read r
    if sq.elems.length ≤ 1 then σ.alloc ⟨SKind.listK, sq.elems⟩
    else
      let middle := sq.elems.length / 2
      let a1 := σ.alloc ⟨sq.kind, sq.elems.take middle⟩
      let a2 := a1.1.alloc ⟨sq.kind, sq.elems.drop middle⟩
      let q1 := mergeSortS fuel a2.1 a1.2
      let q2 := mergeSortS fuel q1.1 a2.2
      mergeS q2.1 q1.2 q2.2

/-! Part 2: helper lemmas. -/

theorem cnt_eq_count (x : Int) (l : List Int) : cnt x l = l.count x := by
  induction l with
  | nil => simp [cnt]
  | cons y ys ih =>
    by_cases h : y = x
    · simp [cnt, h, ih, List.count_cons]
      omega
    · simp [cnt, h, ih, List.count_cons]

theorem perm_of_cnt_eq {l₁ l₂ : List Int} (h : ∀ x, cnt x l₁ = cnt x l₂) : l₁.Perm l₂ := by
  refine List.perm_iff_count.2 fun a => ?_
  have hx := h a
  rwa [cnt_eq_count, cnt_eq_count] at hx

theorem cnt_append (x : Int) (l₁ l₂ : List Int) :
    cnt x (l₁ ++ l₂) = cnt x l₁ + cnt x l₂ := by
  induction l₁ with
  | nil => simp [cnt]
  | cons y ys ih => simp [cnt, ih]; omega

theorem mem_of_mem_removeFirst {y m : Int} : ∀ {l : List Int}, y ∈ removeFirst m l → y ∈ l := by
  intro l
  induction l with
  | nil => simp [removeFirst]
  | cons z zs ih =>
    intro hy
    by_cases hz : z = m
    · simp only [removeFirst, if_pos hz] at hy
      exact List.mem_cons.2 (Or.inr hy)
    · simp only [removeFirst, if_neg hz] at hy
      rcases List.mem_cons.1 hy with h | h
      · exact List.mem_cons.2 (Or.inl h)
      · exact List.mem_cons.2 (Or.inr (ih h))

theorem perm_cons_removeFirst {m : Int} : ∀ {l : List Int}, m ∈ l → (m :: removeFirst m l).Perm l := by
  intro l
  induction l with
  | nil => intro h; simp at h
  | cons z zs ih =>
    intro hm
    by_cases hz : z = m
    · subst hz
      simp [removeFirst]
    · rcases List.mem_cons.1 hm with h | h
      · exact absurd h.symm hz
      · have h1 : m :: removeFirst m (z :: zs) = m :: z :: removeFirst m zs := by
          simp [removeFirst, hz]
        rw [h1]
        exact (List.Perm.swap z m _).trans (List.Perm.cons z (ih h))

theorem foldl_min_mem : ∀ (xs : List Int) (x : Int), xs.foldl min x ∈ x :: xs := by
  intro xs
  induction xs with
  | nil => intro x; simp
  | cons z zs ih =>
    intro x
    have h := ih (min x z)
    simp only [List.foldl_cons]
    rcases List.mem_cons.1 h with h' | h'
    · rcases min_choice x z with hc | hc
      · exact List.mem_cons.2 (Or.inl (h'.trans hc))
      · exact List.mem_cons.2 (Or.inr (List.mem_cons.2 (Or.inl (h'.trans hc))))
    · exact List.mem_cons.2 (Or.inr (List.mem_cons.2 (Or.inr h')))

theorem foldl_min_le : ∀ (xs : List Int) (x y : Int), y ∈ x :: xs → xs.foldl min x ≤ y := by
  intro xs
  induction xs with
  | nil =>
    intro x y hy
    simp only [List.foldl_nil]
    rcases List.mem_cons.1 hy with h | h
    · exact le_of_eq h.symm
    · simp at h
  | cons z zs ih =>
    intro x y hy
    simp only [List.foldl_cons]
    rcases List.mem_cons.1 hy with h | h
    · exact le_trans (le_trans (ih (min x z) (min x z) (List.mem_cons.2 (Or.inl rfl)))
        (min_le_left x z)) (le_of_eq h.symm)
    · rcases List.mem_cons.1 h with h' | h'
      · exact le_trans (le_trans (ih (min x z) (min x z) (List.mem_cons.2 (Or.inl rfl)))
          (min_le_right x z)) (le_of_eq h'.symm)
      · exact ih (min x z) y (List.mem_cons.2 (Or.inr h'))

theorem sel_perm : ∀ l : List Int, (SelectionSort.sorting_algorithm l).Perm l := by
  intro l
  induction l using SelectionSort.sorting_algorithm.induct with
  | case1 => simp [SelectionSort.sorting_algorithm]
  | case2 x xs m ih =>
    rw [SelectionSort.sorting_algorithm]
    exact (List.Perm.cons _ ih).trans (perm_cons_removeFirst (foldl_min_mem xs x))

theorem sel_sorted : ∀ l : List Int, (SelectionSort.sorting_algorithm l).Pairwise (· ≤ ·) := by
  intro l
  induction l using SelectionSort.sorting_algorithm.induct with
  | case1 => simp [SelectionSort.sorting_algorithm]
  | case2 x xs m ih =>
    rw [SelectionSort.sorting_algorithm]
    refine List.Pairwise.cons ?_ ih
    intro y hy
    have hy1 : y ∈ removeFirst (xs.foldl min x) (x :: xs) := ((sel_perm _).mem_iff).1 hy
    exact foldl_min_le xs x y (mem_of_mem_removeFirst hy1)

theorem cnt_filter_partition (p : Int) (l : List Int) (x : Int) :
    cnt x (l.filter fun n => decide (n < p)) + cnt x (l.filter fun n => decide (n = p)) +
      cnt x (l.filter fun n => decide (n > p)) = cnt x l := by
  induction l with
  | nil => simp [cnt]
  | cons y ys ih =>
    simp only [gt_iff_lt] at ih ⊢
    rcases lt_trichotomy y p with h | h | h
    · simp [List.filter_cons, cnt, h, ne_of_lt h, lt_asymm h]
      omega
    · subst h
      simp [List.filter_cons, cnt, lt_irrefl]
      omega
    · simp [List.filter_cons, cnt, h, ne_of_gt h, lt_asymm h]
      omega

theorem quick_perm : ∀ l : List Int, (QuickSort.sorting_algorithm l).Perm l := by
  intro l
  induction l using QuickSort.sorting_algorithm.induct with
  | case1 data h =>
    rw [QuickSort.sorting_algorithm]
    simp [h]
  | case2 data h pivot ih1 ih2 =>
    have hpiv : pivot = data.getD (data.length / 2) 0 := rfl
    rw [QuickSort.sorting_algorithm]
    simp only [dif_neg h]
    rw [← hpiv]
    refine perm_of_cnt_eq fun x => ?_
    rw [cnt_append, cnt_append]
    have e1 : cnt x (QuickSort.sorting_algorithm (data.filter fun n => decide (n < pivot))) =
        cnt x (data.filter fun n => decide (n < pivot)) := by
      rw [cnt_eq_count, cnt_eq_count]
      exact ih1.count_eq x
    have e2 : cnt x (QuickSort.sorting_algorithm (data.filter fun n => decide (n > pivot))) =
        cnt x (data.filter fun n => decide (n > pivot)) := by
      rw [cnt_eq_count, cnt_eq_count]
      exact ih2.count_eq x
    rw [e1, e2]
    exact cnt_filter_partition pivot data x

theorem pairwise_of_length_le_one {l : List Int} (h : l.length ≤ 1) :
    l.Pairwise (· ≤ ·) := by
  cases l with
  | nil => exact List.Pairwise.nil
  | cons x xs =>
    cases xs with
    | nil => exact List.pairwise_singleton _ _
    | cons y ys => simp at h

theorem quick_sorted : ∀ l : List Int, (QuickSort.sorting_algorithm l).Pairwise (· ≤ ·) := by
  intro l
  induction l using QuickSort.sorting_algorithm.induct with
  | case1 data h =>
    rw [QuickSort.sorting_algorithm]
    simp only [dif_pos h]
    exact pairwise_of_length_le_one h
  | case2 data h pivot ih1 ih2 =>
    have hpiv : pivot = data.getD (data.length / 2) 0 := rfl
    rw [QuickSort.sorting_algorithm]
    simp only [dif_neg h]
    rw [← hpiv]
    have hmlt : ∀ y ∈ QuickSort.sorting_algorithm (data.filter fun n => decide (n < pivot)),
        y < pivot := by
      intro y hy
      have hy2 : y ∈ data.filter fun n => decide (n < pivot) := ((quick_perm _).mem_iff).1 hy
      simpa using (List.mem_filter.1 hy2).2
    have hmeq : ∀ y ∈ data.filter fun n => decide (n = pivot), y = pivot := by
      intro y hy
      simpa using (List.mem_filter.1 hy).2
    have hmgt : ∀ y ∈ QuickSort.sorting_algorithm (data.filter fun n => decide (n > pivot)),
        pivot < y := by
      intro y hy
      have hy2 : y ∈ data.filter fun n => decide (n > pivot) := ((quick_perm _).mem_iff).1 hy
      simpa using (List.mem_filter.1 hy2).2
    refine List.pairwise_append.2 ⟨List.pairwise_append.2 ⟨ih1, ?_, ?_⟩, ih2, ?_⟩
    · refine List.pairwise_iff_forall_sublist.2 ?_
      intro a b hab
      have ha := hmeq a (hab.subset (List.mem_cons.2 (Or.inl rfl)))
      have hb := hmeq b (hab.subset (List.mem_cons.2 (Or.inr (List.mem_cons.2 (Or.inl rfl)))))
      rw [ha, hb]
    · intro a ha b hb
      exact le_of_lt (lt_of_lt_of_le (hmlt a ha) (le_of_eq (hmeq b hb).symm))
    · intro a ha b hb
      rcases List.mem_append.1 ha with h1 | h1
      · exact le_of_lt (lt_trans (hmlt a h1) (hmgt b hb))
      · exact le_of_lt (lt_of_le_of_lt (le_of_eq (hmeq a h1)) (hmgt b hb))

theorem mergeLoop_eq {α : Type} (lt : α → α → Bool) (left right : List α) :
    ∀ (il ir : Nat) (result : List α),
      MergeSort.mergeLoop lt left right il ir result =
        result ++ mergeSpec lt (left.drop il) (right.drop ir) := by
  intro il ir result
  induction il, ir, result using MergeSort.mergeLoop.induct lt left right with
  | case1 il ir result h hlt ih =>
    rw [MergeSort.mergeLoop]
    simp only [dif_pos h, if_pos hlt, ih]
    rw [← List.getElem_cons_drop left il h.1, ← List.getElem_cons_drop right ir h.2]
    rw [mergeSpec]
    simp only [List.get_eq_getElem] at hlt
    simp [hlt]
  | case2 il ir result h hlt ih =>
    rw [MergeSort.mergeLoop]
    simp only [dif_pos h, if_neg hlt, ih]
    rw [← List.getElem_cons_drop left il h.1, ← List.getElem_cons_drop right ir h.2]
    rw [mergeSpec]
    simp only [List.get_eq_getElem] at hlt
    simp [hlt]
  | case3 il ir result h =>
    rw [MergeSort.mergeLoop]
    simp only [dif_neg h]
    rcases Nat.lt_or_ge il left.length with h1 | h1
    · have h2 : right.length ≤ ir := by omega
      rw [List.drop_eq_nil_of_le h2]
      rw [← List.getElem_cons_drop left il h1]
      rw [mergeSpec]
      simp
    · rw [List.drop_eq_nil_of_le h1]
      rw [mergeSpec]
      simp

theorem mergeSpec_perm {α : Type} (lt : α → α → Bool) :
    ∀ (l r : List α), (mergeSpec lt l r).Perm (l ++ r) := by
  intro l r
  induction l, r using mergeSpec.induct lt with
  | case1 r =>
    rw [mergeSpec]
    simp
  | case2 a l =>
    rw [mergeSpec]
    simp
  | case3 a l b r hlt ih =>
    rw [mergeSpec]
    simp only [if_pos hlt]
    exact List.Perm.cons a ih
  | case4 a l b r hlt ih =>
    rw [mergeSpec]
    simp only [if_neg hlt]
    exact (List.Perm.cons b ih).trans List.perm_middle.symm

theorem mergeSpec_sorted :
    ∀ (l r : List Int), l.Pairwise (· ≤ ·) → r.Pairwise (· ≤ ·) →
      (mergeSpec (fun x y => decide (x < y)) l r).Pairwise (· ≤ ·) := by
  intro l r
  induction l, r using mergeSpec.induct (fun x y : Int => decide (x < y)) with
  | case1 r =>
    intro _ hr
    rw [mergeSpec]
    exact hr
  | case2 a l =>
    intro hl _
    rw [mergeSpec]
    exact hl
  | case3 a l b r hlt ih =>
    intro hl hr
    have hab : a < b := by simpa using hlt
    rw [mergeSpec]
    simp only [if_pos hlt]
    refine List.Pairwise.cons ?_ (ih (List.Pairwise.of_cons hl) hr)
    intro y hy
    have hy2 : y ∈ l ++ b :: r := ((mergeSpec_perm _ l (b :: r)).mem_iff).1 hy
    rcases List.mem_append.1 hy2 with h1 | h1
    · exact List.rel_of_pairwise_cons hl h1
    · rcases List.mem_cons.1 h1 with h2 | h2
      · exact le_of_lt (h2 ▸ hab)
      · exact le_of_lt (lt_of_lt_of_le hab (List.rel_of_pairwise_cons hr h2))
  | case4 a l b r hlt ih =>
    intro hl hr
    have hba : b ≤ a := by simpa using hlt
    rw [mergeSpec]
    simp only [if_neg hlt]
    refine List.Pairwise.cons ?_ (ih hl (List.Pairwise.of_cons hr))
    intro y hy
    have hy2 : y ∈ (a :: l) ++ r := ((mergeSpec_perm _ (a :: l) r).mem_iff).1 hy
    rcases List.mem_append.1 hy2 with h1 | h1
    · rcases List.mem_cons.1 h1 with h2 | h2
      · exact h2 ▸ hba
      · exact le_trans hba (List.rel_of_pairwise_cons hl h2)
    · exact List.rel_of_pairwise_cons hr h1

theorem merge_eq_mergeSpec (left right : List Int) :
    MergeSort.merge left right = mergeSpec (fun x y => decide (x < y)) left right := by
  rw [MergeSort.merge, mergeLoop_eq]
  simp

theorem msort_perm : ∀ l : List Int, (MergeSort.sorting_algorithm l).Perm l := by
  intro l
  induction l using MergeSort.sorting_algorithm.induct with
  | case1 data h =>
    rw [MergeSort.sorting_algorithm]
    simp [h]
  | case2 data h ih1 ih2 =>
    rw [MergeSort.sorting_algorithm]
    simp only [dif_neg h]
    rw [merge_eq_mergeSpec]
    refine ((mergeSpec_perm _ _ _).trans ?_)
    exact (List.Perm.append ih1 ih2).trans
      (by rw [List.take_append_drop])

theorem msort_sorted : ∀ l : List Int, (MergeSort.sorting_algorithm l).Pairwise (· ≤ ·) := by
  intro l
  induction l using MergeSort.sorting_algorithm.induct with
  | case1 data h =>
    rw [MergeSort.sorting_algorithm]
    simp only [dif_pos h]
    exact pairwise_of_length_le_one h
  | case2 data h ih1 ih2 =>
    rw [MergeSort.sorting_algorithm]
    simp only [dif_neg h]
    rw [merge_eq_mergeSpec]
    exact mergeSpec_sorted _ _ ih1 ih2

theorem sorted_perm_unique {l₁ l₂ : List Int} (hp : l₁.Perm l₂)
    (h₁ : l₁.Pairwise (· ≤ ·)) (h₂ : l₂.Pairwise (· ≤ ·)) : l₁ = l₂ :=
  List.eq_of_perm_of_sorted hp h₁ h₂

theorem quick_eq_sel (l : List Int) :
    QuickSort.sorting_algorithm l = SelectionSort.sorting_algorithm l :=
  sorted_perm_unique ((quick_perm l).trans (sel_perm l).symm) (quick_sorted l) (sel_sorted l)

theorem msort_eq_sel (l : List Int) :
    MergeSort.sorting_algorithm l = SelectionSort.sorting_algorithm l :=
  sorted_perm_unique ((msort_perm l).trans (sel_perm l).symm) (msort_sorted l) (sel_sorted l)

theorem sel_idem (l : List Int) :
    SelectionSort.sorting_algorithm (SelectionSort.sorting_algorithm l) =
      SelectionSort.sorting_algorithm l :=
  sorted_perm_unique (sel_perm _) (sel_sorted _) (sel_sorted l)

theorem quick_idem (l : List Int) :
    QuickSort.sorting_algorithm (QuickSort.sorting_algorithm l) =
      QuickSort.sorting_algorithm l :=
  sorted_perm_unique ((quick_perm _).trans ((quick_perm l).trans (quick_perm l).symm))
    (quick_sorted _) (quick_sorted l)

theorem msort_idem (l : List Int) :
    MergeSort.sorting_algorithm (MergeSort.sorting_algorithm l) =
      MergeSort.sorting_algorithm l :=
  sorted_perm_unique ((msort_perm _).trans ((msort_perm l).trans (msort_perm l).symm))
    (msort_sorted _) (msort_sorted l)

theorem sel_nil : SelectionSort.sorting_algorithm [] = [] := by
  rw [SelectionSort.sorting_algorithm]

theorem sel_single (x : Int) : SelectionSort.sorting_algorithm [x] = [x] := by
  rw [SelectionSort.sorting_algorithm]
  simp [removeFirst, sel_nil]

theorem heapify_nil : heapq.heapify [] = [] := rfl

theorem heapify_single (x : Int) : heapq.heapify [x] = [x] := by
  simp [heapq.heapify, heapq.heapifyAux]

theorem quick_nil : QuickSort.sorting_algorithm [] = [] := by
  rw [QuickSort.sorting_algorithm]
  simp

theorem quick_single (x : Int) : QuickSort.sorting_algorithm [x] = [x] := by
  rw [QuickSort.sorting_algorithm]
  simp

theorem msort_nil : MergeSort.sorting_algorithm [] = [] := by
  rw [MergeSort.sorting_algorithm]
  simp

theorem msort_single (x : Int) : MergeSort.sorting_algorithm [x] = [x] := by
  rw [MergeSort.sorting_algorithm]
  simp

theorem getD_set_self : ∀ (l : List Int) (i : Nat) (v : Int), i < l.length →
    (l.set i v).getD i 0 = v := by
  intro l
  induction l with
  | nil => intro i v h; simp at h
  | cons y ys ih =>
    intro i v h
    cases i with
    | zero => rfl
    | succ j =>
      have : (y :: ys).set (j + 1) v = y :: ys.set j v := rfl
      rw [this, List.getD_cons_succ]
      exact ih j v (by simpa using h)

theorem getD_set_ne : ∀ (l : List Int) (i j : Nat) (v : Int), j ≠ i →
    (l.set i v).getD j 0 = l.getD j 0 := by
  intro l
  induction l with
  | nil => intro i j v _; simp
  | cons y ys ih =>
    intro i j v hne
    cases i with
    | zero =>
      cases j with
      | zero => exact absurd rfl hne
      | succ j' => rfl
    | succ i' =>
      cases j with
      | zero => rfl
      | succ j' =>
        have : (y :: ys).set (i' + 1) v = y :: ys.set i' v := rfl
        rw [this, List.getD_cons_succ, List.getD_cons_succ]
        exact ih i' j' v (by omega)

theorem cnt_set : ∀ (l : List Int) (i : Nat) (v x : Int), i < l.length →
    cnt x (l.set i v) + (if l.getD i 0 = x then 1 else 0) =
      cnt x l + (if v = x then 1 else 0) := by
  intro l
  induction l with
  | nil => intro i v x h; simp at h
  | cons y ys ih =>
    intro i v x h
    cases i with
    | zero =>
      simp only [List.set, List.getD_cons_zero, cnt]
      omega
    | succ j =>
      have hs : (y :: ys).set (j + 1) v = y :: ys.set j v := rfl
      rw [hs, List.getD_cons_succ]
      simp only [cnt]
      have := ih j v x (by simpa using h)
      omega

theorem inSub_self (i : Nat) : inSub i i = true := by
  rw [inSub]
  simp

theorem inSub_le (i : Nat) : ∀ j, inSub i j = true → i ≤ j := by
  intro j
  induction j using inSub.induct i with
  | case1 =>
    intro _
    omega
  | case2 x h1 h2 =>
    intro h
    rw [inSub] at h
    simp [h1, h2] at h
  | case3 x h1 h2 ih =>
    intro _
    omega

theorem inSub_gt (i j : Nat) (h : i < j) : inSub i j = inSub i ((j - 1) / 2) := by
  rw [inSub]
  have h1 : ¬ j = i := by omega
  have h2 : ¬ j ≤ i := by omega
  simp [h1, h2]

theorem inSub_of_lt (i j : Nat) (h : j < i) : inSub i j = false := by
  rw [inSub]
  have h1 : ¬ j = i := by omega
  have h2 : j ≤ i := by omega
  simp [h1, h2]

theorem inSub_child (i j c : Nat) (hj : inSub i j = true)
    (hc : c = 2 * j + 1 ∨ c = 2 * j + 2) : inSub i c = true := by
  have hij : i ≤ j := inSub_le i j hj
  have h1 : i < c := by omega
  rw [inSub_gt i c h1]
  have h2 : (c - 1) / 2 = j := by omega
  rw [h2]
  exact hj

theorem inSub_trans (i j : Nat) : ∀ k, inSub j k = true → inSub i j = true →
    inSub i k = true := by
  intro k
  induction k using Nat.strong_induction_on with
  | _ k ih =>
    intro hjk hij
    by_cases hkj : k = j
    · subst hkj
      exact hij
    · have hjle : j ≤ k := inSub_le j k hjk
      have hjlt : j < k := by omega
      have hik : i < k := lt_of_le_of_lt (inSub_le i j hij) hjlt
      rw [inSub_gt j k hjlt] at hjk
      rw [inSub_gt i k hik]
      exact ih ((k - 1) / 2) (by omega) hjk hij

theorem inSub_split (p : Nat) : ∀ j, inSub p j = true → j ≠ p →
    inSub (2 * p + 1) j = true ∨ inSub (2 * p + 2) j = true := by
  intro j
  induction j using Nat.strong_induction_on with
  | _ j ih =>
    intro hj hne
    have hpj : p < j := by
      have := inSub_le p j hj
      omega
    rw [inSub_gt p j hpj] at hj
    by_cases hpar : (j - 1) / 2 = p
    · have hdir : j = 2 * p + 1 ∨ j = 2 * p + 2 := by omega
      rcases hdir with h | h
      · exact Or.inl (h ▸ inSub_self _)
      · exact Or.inr (h ▸ inSub_self _)
    · have hplt : p < (j - 1) / 2 := by
        have := inSub_le p ((j - 1) / 2) hj
        omega
      have hj1 : 2 * p + 1 < j := by omega
      have hj2 : 2 * p + 2 < j := by omega
      rcases ih ((j - 1) / 2) (by omega) hj hpar with h | h
      · exact Or.inl (by rw [inSub_gt (2 * p + 1) j hj1]; exact h)
      · exact Or.inr (by rw [inSub_gt (2 * p + 2) j hj2]; exact h)

theorem notSub_child (i j c : Nat) (hc : c = 2 * j + 1 ∨ c = 2 * j + 2)
    (hj : inSub i j = false) (hic : i < c) : inSub i c = false := by
  rw [inSub_gt i c hic]
  have h2 : (c - 1) / 2 = j := by omega
  rw [h2]
  exact hj

theorem childpos_spec (heap : List Int) (pos c : Nat) (h : 2 * pos + 1 < heap.length)
    (hc : c = if 2 * pos + 2 < heap.length ∧
        ¬ heap.getD (2 * pos + 1) 0 < heap.getD (2 * pos + 2) 0
      then 2 * pos + 2 else 2 * pos + 1) :
    (c = 2 * pos + 1 ∨ c = 2 * pos + 2) ∧ c < heap.length ∧
      ∀ d, (d = 2 * pos + 1 ∨ d = 2 * pos + 2) → d < heap.length →
        heap.getD c 0 ≤ heap.getD d 0 := by
  by_cases hcond : 2 * pos + 2 < heap.length ∧
      ¬ heap.getD (2 * pos + 1) 0 < heap.getD (2 * pos + 2) 0
  · rw [if_pos hcond] at hc
    subst hc
    refine ⟨Or.inr rfl, hcond.1, ?_⟩
    intro d hd hdlen
    rcases hd with h1 | h1
    · subst h1
      exact le_of_not_lt hcond.2
    · subst h1
      exact le_refl _
  · rw [if_neg hcond] at hc
    subst hc
    refine ⟨Or.inl rfl, h, ?_⟩
    intro d hd hdlen
    rcases hd with h1 | h1
    · subst h1
      exact le_refl _
    · subst h1
      have hlt : heap.getD (2 * pos + 1) 0 < heap.getD (2 * pos + 2) 0 := by
        by_contra hnot
        exact hcond ⟨hdlen, hnot⟩
      exact le_of_lt hlt

theorem siftupAux_length : ∀ (heap : List Int) (pos : Nat),
    (heapq.siftupAux heap pos).1.length = heap.length := by
  intro heap pos
  induction heap, pos using heapq.siftupAux.induct with
  | case1 heap pos h cp ih =>
    have hcp : cp = if 2 * pos + 2 < heap.length ∧
        ¬ heap.getD (2 * pos + 1) 0 < heap.getD (2 * pos + 2) 0
      then 2 * pos + 2 else 2 * pos + 1 := rfl
    rw [heapq.siftupAux]
    simp only [dif_pos h]
    rw [← hcp]
    rw [ih]
    simp
  | case2 heap pos h =>
    rw [heapq.siftupAux]
    simp only [dif_neg h]

theorem siftupAux_pos : ∀ (heap : List Int) (pos : Nat), pos < heap.length →
    inSub pos (heapq.siftupAux heap pos).2 = true ∧
      (heapq.siftupAux heap pos).2 < heap.length ∧
      heap.length ≤ 2 * (heapq.siftupAux heap pos).2 + 1 := by
  intro heap pos
  induction heap, pos using heapq.siftupAux.induct with
  | case1 heap pos h cp ih =>
    intro hpos
    have hcp : cp = if 2 * pos + 2 < heap.length ∧
        ¬ heap.getD (2 * pos + 1) 0 < heap.getD (2 * pos + 2) 0
      then 2 * pos + 2 else 2 * pos + 1 := rfl
    obtain ⟨hchild, hclen, hmin⟩ := childpos_spec heap pos cp h hcp
    rw [heapq.siftupAux]
    simp only [dif_pos h]
    rw [← hcp]
    have ih' := ih (by simpa using hclen)
    refine ⟨?_, ?_, ?_⟩
    · exact inSub_trans pos cp _ ih'.1 (inSub_child pos pos cp (inSub_self pos) hchild)
    · have := ih'.2.1
      simpa using this
    · have := ih'.2.2
      simpa using this
  | case2 heap pos h =>
    intro hpos
    rw [heapq.siftupAux]
    simp only [dif_neg h]
    exact ⟨inSub_self pos, hpos, by omega⟩

theorem siftupAux_frame : ∀ (heap : List Int) (pos : Nat) (j : Nat), inSub pos j = false →
    (heapq.siftupAux heap pos).1.getD j 0 = heap.getD j 0 := by
  intro heap pos
  induction heap, pos using heapq.siftupAux.induct with
  | case1 heap pos h cp ih =>
    intro j hj
    have hcp : cp = if 2 * pos + 2 < heap.length ∧
        ¬ heap.getD (2 * pos + 1) 0 < heap.getD (2 * pos + 2) 0
      then 2 * pos + 2 else 2 * pos + 1 := rfl
    obtain ⟨hchild, hclen, hmin⟩ := childpos_spec heap pos cp h hcp
    have hjpos : j ≠ pos := by
      intro he
      rw [he, inSub_self] at hj
      exact Bool.noConfusion hj
    have hjc : inSub cp j = false := by
      by_contra hx
      have hx' : inSub cp j = true := by
        revert hx
        cases inSub cp j <;> simp
      have : inSub pos j = true :=
        inSub_trans pos cp j hx' (inSub_child pos pos cp (inSub_self pos) hchild)
      rw [this] at hj
      exact Bool.noConfusion hj
    rw [heapq.siftupAux]
    simp only [dif_pos h]
    rw [← hcp]
    rw [ih j hjc]
    exact getD_set_ne heap pos j _ hjpos
  | case2 heap pos h =>
    intro j hj
    rw [heapq.siftupAux]
    simp only [dif_neg h]

theorem siftupAux_cnt : ∀ (heap : List Int) (pos : Nat), pos < heap.length → ∀ (u x : Int),
    cnt x ((heapq.siftupAux heap pos).1.set (heapq.siftupAux heap pos).2 u) =
      cnt x (heap.set pos u) := by
  intro heap pos
  induction heap, pos using heapq.siftupAux.induct with
  | case1 heap pos h cp ih =>
    intro hpos u x
    have hcp : cp = if 2 * pos + 2 < heap.length ∧
        ¬ heap.getD (2 * pos + 1) 0 < heap.getD (2 * pos + 2) 0
      then 2 * pos + 2 else 2 * pos + 1 := rfl
    obtain ⟨hchild, hclen, hmin⟩ := childpos_spec heap pos cp h hcp
    have hcpos : cp ≠ pos := by omega
    rw [heapq.siftupAux]
    simp only [dif_pos h]
    rw [← hcp]
    rw [ih (by simpa using hclen) u x]
    have hA := cnt_set (heap.set pos (heap.getD cp 0)) cp u x (by simpa using hclen)
    rw [getD_set_ne heap pos cp _ hcpos] at hA
    have hB := cnt_set heap pos (heap.getD cp 0) x hpos
    have hC := cnt_set heap pos u x hpos
    omega
  | case2 heap pos h =>
    intro hpos u x
    rw [heapq.siftupAux]
    simp only [dif_neg h]

theorem siftupAux_root (heap : List Int) (pos : Nat) (hpos : pos < heap.length) :
    heapq.siftupAux heap pos = (heap, pos) ∨
      ∃ c, (c = 2 * pos + 1 ∨ c = 2 * pos + 2) ∧ c < heap.length ∧
        (heapq.siftupAux heap pos).1.getD pos 0 = heap.getD c 0 ∧
        ∀ d, (d = 2 * pos + 1 ∨ d = 2 * pos + 2) → d < heap.length →
          heap.getD c 0 ≤ heap.getD d 0 := by
  by_cases h : 2 * pos + 1 < heap.length
  · right
    obtain ⟨hchild, hclen, hmin⟩ := childpos_spec heap pos _ h rfl
    have hcpos : pos < (if 2 * pos + 2 < heap.length ∧
        ¬ heap.getD (2 * pos + 1) 0 < heap.getD (2 * pos + 2) 0
      then 2 * pos + 2 else 2 * pos + 1) := by
      rcases hchild with h1 | h1 <;> omega
    refine ⟨_, hchild, hclen, ?_, hmin⟩
    rw [heapq.siftupAux]
    simp only [dif_pos h]
    rw [siftupAux_frame _ _ pos (inSub_of_lt _ pos hcpos)]
    exact getD_set_self heap pos _ hpos
  · left
    rw [heapq.siftupAux]
    simp only [dif_neg h]

theorem siftupAux_heap : ∀ (heap : List Int) (pos : Nat), pos < heap.length →
    (∀ j c, inSub pos j = true → j ≠ pos → (c = 2 * j + 1 ∨ c = 2 * j + 2) →
      c < heap.length → heap.getD j 0 ≤ heap.getD c 0) →
    heapOnSub (heapq.siftupAux heap pos).1 pos := by
  intro heap pos
  induction heap, pos using heapq.siftupAux.induct with
  | case2 heap pos h =>
    intro hpos hpre
    rw [heapq.siftupAux]
    simp only [dif_neg h]
    show heapOnSub heap pos
    intro j d hj hd hdlen
    have hd' : 2 * j + 1 ≤ d := by rcases hd with h1 | h1 <;> omega
    by_cases hjp : j = pos
    · subst hjp
      omega
    · exact hpre j d hj hjp hd hdlen
  | case1 heap pos h cp ih =>
    intro hpos hpre
    have hcp : cp = if 2 * pos + 2 < heap.length ∧
        ¬ heap.getD (2 * pos + 1) 0 < heap.getD (2 * pos + 2) 0
      then 2 * pos + 2 else 2 * pos + 1 := rfl
    obtain ⟨hchild, hclen, hmin⟩ := childpos_spec heap pos cp h hcp
    have hcpos : pos < cp := by rcases hchild with h1 | h1 <;> omega
    have hcpsub : inSub pos cp = true := inSub_child pos pos cp (inSub_self pos) hchild
    have hpre' : ∀ j c, inSub cp j = true → j ≠ cp → (c = 2 * j + 1 ∨ c = 2 * j + 2) →
        c < (heap.set pos (heap.getD cp 0)).length →
        (heap.set pos (heap.getD cp 0)).getD j 0 ≤
          (heap.set pos (heap.getD cp 0)).getD c 0 := by
      intro j c hj hjc hc hclen2
      have hjcp : cp ≤ j := inSub_le cp j hj
      have hjgt : cp < j := by omega
      have hc' : 2 * j + 1 ≤ c := by rcases hc with h1 | h1 <;> omega
      have hjpos : j ≠ pos := by omega
      have hcpos2 : c ≠ pos := by omega
      rw [getD_set_ne heap pos j _ hjpos, getD_set_ne heap pos c _ hcpos2]
      refine hpre j c ?_ (by omega) hc (by simpa using hclen2)
      exact inSub_trans pos cp j hj hcpsub
    have ih' := ih (by simpa using hclen) hpre'
    rw [heapq.siftupAux]
    simp only [dif_pos h]
    rw [← hcp]
    intro j d hj hd hdlen
    have hdlen' : d < heap.length := by
      rw [siftupAux_length] at hdlen
      simpa using hdlen
    have hd' : 2 * j + 1 ≤ d := by rcases hd with h1 | h1 <;> omega
    by_cases hjc : inSub cp j = true
    · exact ih' j d hjc hd hdlen
    · have hjcF : inSub cp j = false := by
        revert hjc
        cases inSub cp j <;> simp
      by_cases hjp : j = pos
      · rw [hjp]
        rw [hjp] at hd hd'
        have hposc : inSub cp pos = false := inSub_of_lt cp pos hcpos
        have hL : (heapq.siftupAux (heap.set pos (heap.getD cp 0)) cp).1.getD pos 0 =
            heap.getD cp 0 := by
          rw [siftupAux_frame _ cp pos hposc]
          exact getD_set_self heap pos _ hpos
        rw [hL]
        by_cases hdc : d = cp
        · rw [hdc]
          rcases siftupAux_root (heap.set pos (heap.getD cp 0)) cp (by simpa using hclen)
            with hr | hr
          · rw [hr]
            show heap.getD cp 0 ≤ (heap.set pos (heap.getD cp 0)).getD cp 0
            rw [getD_set_ne heap pos cp _ (by omega)]
          · obtain ⟨c1, hc1, hc1len, hc1val, _⟩ := hr
            rw [hc1val]
            have hc1' : 2 * cp + 1 ≤ c1 := by rcases hc1 with h1 | h1 <;> omega
            rw [getD_set_ne heap pos c1 _ (by omega)]
            exact hpre cp c1 hcpsub (by omega) hc1 (by simpa using hc1len)
        · have hdsub : inSub cp d = false := by
            rcases Nat.lt_trichotomy d cp with hlt | heq | hgt
            · exact inSub_of_lt cp d hlt
            · exact absurd heq hdc
            · rw [inSub_gt cp d hgt]
              have hpar : (d - 1) / 2 = pos := by
                rcases hd with h1 | h1 <;> omega
              rw [hpar]
              exact inSub_of_lt cp pos hcpos
          rw [siftupAux_frame _ cp d hdsub]
          rw [getD_set_ne heap pos d _ (by omega)]
          exact hmin d hd hdlen'
      · have hjsub : pos ≤ j := inSub_le pos j hj
        have hjgt : pos < j := by omega
        have hcple : cp ≤ 2 * pos + 2 := by rcases hchild with h1 | h1 <;> omega
        have hdsub : inSub cp d = false := notSub_child cp j d hd hjcF (by omega)
        rw [siftupAux_frame _ cp j hjcF, siftupAux_frame _ cp d hdsub]
        rw [getD_set_ne heap pos j _ hjp, getD_set_ne heap pos d _ (by omega)]
        exact hpre j d hj hjp hd hdlen'

theorem siftdownAux_length (s : Nat) (item : Int) : ∀ (heap : List Int) (pos : Nat),
    (heapq.siftdownAux s item heap pos).length = heap.length := by
  intro heap pos
  induction heap, pos using heapq.siftdownAux.induct s item with
  | case1 heap pos h1 h2 ih =>
    rw [heapq.siftdownAux]
    simp only [if_pos h1, if_pos h2]
    rw [ih]
    simp
  | case2 heap pos h1 h2 =>
    rw [heapq.siftdownAux]
    simp only [if_pos h1, if_neg h2]
    simp
  | case3 heap pos h1 =>
    rw [heapq.siftdownAux]
    simp only [if_neg h1]
    simp

theorem siftdownAux_frame (s : Nat) (item : Int) : ∀ (heap : List Int) (pos : Nat),
    inSub s pos = true → ∀ j, inSub s j = false →
    (heapq.siftdownAux s item heap pos).getD j 0 = heap.getD j 0 := by
  intro heap pos
  induction heap, pos using heapq.siftdownAux.induct s item with
  | case1 heap pos h1 h2 ih =>
    intro hpos j hj
    have hjpos : j ≠ pos := by
      intro he
      rw [he, hpos] at hj
      exact Bool.noConfusion hj
    have hpp : inSub s ((pos - 1) / 2) = true := by
      rw [inSub_gt s pos h1] at hpos
      exact hpos
    rw [heapq.siftdownAux]
    simp only [if_pos h1, if_pos h2]
    rw [ih hpp j hj]
    exact getD_set_ne heap pos j _ hjpos
  | case2 heap pos h1 h2 =>
    intro hpos j hj
    have hjpos : j ≠ pos := by
      intro he
      rw [he, hpos] at hj
      exact Bool.noConfusion hj
    rw [heapq.siftdownAux]
    simp only [if_pos h1, if_neg h2]
    exact getD_set_ne heap pos j _ hjpos
  | case3 heap pos h1 =>
    intro hpos j hj
    have hjpos : j ≠ pos := by
      intro he
      rw [he, hpos] at hj
      exact Bool.noConfusion hj
    rw [heapq.siftdownAux]
    simp only [if_neg h1]
    exact getD_set_ne heap pos j _ hjpos

theorem siftdownAux_cnt (s : Nat) (item : Int) : ∀ (heap : List Int) (pos : Nat),
    pos < heap.length → ∀ x,
    cnt x (heapq.siftdownAux s item heap pos) = cnt x (heap.set pos item) := by
  intro heap pos
  induction heap, pos using heapq.siftdownAux.induct s item with
  | case1 heap pos h1 h2 ih =>
    intro hpos x
    have hpplt : (pos - 1) / 2 < pos := by omega
    have hpplen : (pos - 1) / 2 < heap.length := by omega
    rw [heapq.siftdownAux]
    simp only [if_pos h1, if_pos h2]
    rw [ih (by simpa using hpplen) x]
    have hA := cnt_set (heap.set pos (heap.getD ((pos - 1) / 2) 0)) ((pos - 1) / 2) item x
      (by simpa using hpplen)
    rw [getD_set_ne heap pos ((pos - 1) / 2) _ (by omega)] at hA
    have hB := cnt_set heap pos (heap.getD ((pos - 1) / 2) 0) x hpos
    have hC := cnt_set heap pos item x hpos
    omega
  | case2 heap pos h1 h2 =>
    intro hpos x
    rw [heapq.siftdownAux]
    simp only [if_pos h1, if_neg h2]
  | case3 heap pos h1 =>
    intro hpos x
    rw [heapq.siftdownAux]
    simp only [if_neg h1]

theorem siftdownAux_heap (s : Nat) (item : Int) : ∀ (heap : List Int) (pos : Nat),
    pos < heap.length → inSub s pos = true →
    (∀ j c, inSub s j = true → (c = 2 * j + 1 ∨ c = 2 * j + 2) → c < heap.length →
      j ≠ pos → c ≠ pos → heap.getD j 0 ≤ heap.getD c 0) →
    (∀ c, (c = 2 * pos + 1 ∨ c = 2 * pos + 2) → c < heap.length → item ≤ heap.getD c 0) →
    (s < pos → ∀ c, (c = 2 * pos + 1 ∨ c = 2 * pos + 2) → c < heap.length →
      heap.getD ((pos - 1) / 2) 0 ≤ heap.getD c 0) →
    heapOnSub (heapq.siftdownAux s item heap pos) s := by
  intro heap pos
  induction heap, pos using heapq.siftdownAux.induct s item with
  | case3 heap pos h1 =>
    intro hpos hsub inv1 inv2 _inv3
    have hps : pos = s := by
      have := inSub_le s pos hsub
      omega
    rw [heapq.siftdownAux]
    simp only [if_neg h1]
    intro j d hj hd hdlen
    have hdlen' : d < heap.length := by simpa using hdlen
    have hd' : 2 * j + 1 ≤ d := by rcases hd with hh | hh <;> omega
    have hjs : s ≤ j := inSub_le s j hj
    by_cases hjpos : j = pos
    · rw [hjpos, getD_set_self heap pos item hpos, getD_set_ne heap pos d _ (by omega)]
      refine inv2 d ?_ hdlen'
      rw [← hjpos]
      exact hd
    · rw [getD_set_ne heap pos j _ hjpos, getD_set_ne heap pos d _ (by omega)]
      exact inv1 j d hj hd hdlen' hjpos (by omega)
  | case2 heap pos h1 h2 =>
    intro hpos hsub inv1 inv2 _inv3
    rw [heapq.siftdownAux]
    simp only [if_pos h1, if_neg h2]
    intro j d hj hd hdlen
    have hdlen' : d < heap.length := by simpa using hdlen
    have hd' : 2 * j + 1 ≤ d := by rcases hd with hh | hh <;> omega
    by_cases hjpos : j = pos
    · rw [hjpos, getD_set_self heap pos item hpos, getD_set_ne heap pos d _ (by omega)]
      refine inv2 d ?_ hdlen'
      rw [← hjpos]
      exact hd
    · by_cases hdpos : d = pos
      · have hjpar : j = (pos - 1) / 2 := by rcases hd with hh | hh <;> omega
        rw [getD_set_ne heap pos j _ hjpos, hdpos, getD_set_self heap pos item hpos, hjpar]
        exact le_of_not_lt h2
      · rw [getD_set_ne heap pos j _ hjpos, getD_set_ne heap pos d _ hdpos]
        exact inv1 j d hj hd hdlen' hjpos hdpos
  | case1 heap pos h1 h2 ih =>
    intro hpos hsub inv1 inv2 inv3
    have hpplt : (pos - 1) / 2 < pos := by omega
    have hpplen : (pos - 1) / 2 < heap.length := by omega
    have hppsub : inSub s ((pos - 1) / 2) = true := by
      rw [inSub_gt s pos h1] at hsub
      exact hsub
    rw [heapq.siftdownAux]
    simp only [if_pos h1, if_pos h2]
    refine ih (by simpa using hpplen) hppsub ?_ ?_ ?_
    · intro j c hj hc hclen2 hjpp hcpp
      have hclen' : c < heap.length := by simpa using hclen2
      have hc' : 2 * j + 1 ≤ c := by rcases hc with hh | hh <;> omega
      by_cases hjpos : j = pos
      · rw [hjpos, getD_set_self heap pos _ hpos, getD_set_ne heap pos c _ (by omega)]
        refine inv3 h1 c ?_ hclen'
        rw [← hjpos]
        exact hc
      · by_cases hcpos : c = pos
        · have : j = (pos - 1) / 2 := by rcases hc with hh | hh <;> omega
          exact absurd this hjpp
        · rw [getD_set_ne heap pos j _ hjpos, getD_set_ne heap pos c _ hcpos]
          exact inv1 j c hj hc hclen' hjpos hcpos
    · intro c hc hclen2
      have hclen' : c < heap.length := by simpa using hclen2
      by_cases hcpos : c = pos
      · rw [hcpos, getD_set_self heap pos _ hpos]
        exact le_of_lt h2
      · rw [getD_set_ne heap pos c _ hcpos]
        exact le_trans (le_of_lt h2)
          (inv1 ((pos - 1) / 2) c hppsub hc hclen' (by omega) hcpos)
    · intro hspp c hc hclen2
      have hclen' : c < heap.length := by simpa using hclen2
      have hgplt : ((pos - 1) / 2 - 1) / 2 < (pos - 1) / 2 := by omega
      have hgpsub : inSub s (((pos - 1) / 2 - 1) / 2) = true := by
        rw [inSub_gt s ((pos - 1) / 2) hspp] at hppsub
        exact hppsub
      have hppchild : (pos - 1) / 2 = 2 * (((pos - 1) / 2 - 1) / 2) + 1 ∨
          (pos - 1) / 2 = 2 * (((pos - 1) / 2 - 1) / 2) + 2 := by omega
      have hgp_pp : heap.getD (((pos - 1) / 2 - 1) / 2) 0 ≤ heap.getD ((pos - 1) / 2) 0 :=
        inv1 (((pos - 1) / 2 - 1) / 2) ((pos - 1) / 2) hgpsub hppchild hpplen
          (by omega) (by omega)
      rw [getD_set_ne heap pos (((pos - 1) / 2 - 1) / 2) _ (by omega)]
      by_cases hcpos : c = pos
      · rw [hcpos, getD_set_self heap pos _ hpos]
        exact hgp_pp
      · rw [getD_set_ne heap pos c _ hcpos]
        have hc' : 2 * ((pos - 1) / 2) + 1 ≤ c := by rcases hc with hh | hh <;> omega
        exact le_trans hgp_pp (inv1 ((pos - 1) / 2) c hppsub hc hclen' (by omega) hcpos)

theorem siftup_length (heap : List Int) (pos : Nat) :
    (heapq.siftup heap pos).length = heap.length := by
  show (heapq.siftdown ((heapq.siftupAux heap pos).1.set (heapq.siftupAux heap pos).2
      (heap.getD pos 0)) pos (heapq.siftupAux heap pos).2).length = heap.length
  rw [heapq.siftdown, siftdownAux_length]
  simp [siftupAux_length]

theorem siftup_cnt (heap : List Int) (pos : Nat) (hpos : pos < heap.length) (x : Int) :
    cnt x (heapq.siftup heap pos) = cnt x heap := by
  have he := siftupAux_pos heap pos hpos
  have helen : (heapq.siftupAux heap pos).2 < (heapq.siftupAux heap pos).1.length := by
    rw [siftupAux_length]
    exact he.2.1
  show cnt x (heapq.siftdown ((heapq.siftupAux heap pos).1.set (heapq.siftupAux heap pos).2
      (heap.getD pos 0)) pos (heapq.siftupAux heap pos).2) = cnt x heap
  rw [heapq.siftdown]
  rw [getD_set_self _ _ _ helen]
  rw [siftdownAux_cnt pos _ _ _ (by simpa using helen) x]
  rw [List.set_set]
  rw [siftupAux_cnt heap pos hpos (heap.getD pos 0) x]
  have hD := cnt_set heap pos (heap.getD pos 0) x hpos
  omega

theorem siftup_frame (heap : List Int) (pos : Nat) (hpos : pos < heap.length) :
    ∀ j, inSub pos j = false → (heapq.siftup heap pos).getD j 0 = heap.getD j 0 := by
  intro j hj
  have he := siftupAux_pos heap pos hpos
  have helen : (heapq.siftupAux heap pos).2 < (heapq.siftupAux heap pos).1.length := by
    rw [siftupAux_length]
    exact he.2.1
  show (heapq.siftdown ((heapq.siftupAux heap pos).1.set (heapq.siftupAux heap pos).2
      (heap.getD pos 0)) pos (heapq.siftupAux heap pos).2).getD j 0 = heap.getD j 0
  rw [heapq.siftdown]
  rw [getD_set_self _ _ _ helen]
  rw [siftdownAux_frame pos _ _ _ he.1 j hj]
  have hje : j ≠ (heapq.siftupAux heap pos).2 := by
    intro hEq
    rw [hEq, he.1] at hj
    exact Bool.noConfusion hj
  rw [getD_set_ne _ _ _ _ hje]
  exact siftupAux_frame heap pos j hj

theorem siftup_heapOnSub (heap : List Int) (pos : Nat) (hpos : pos < heap.length)
    (hpre : ∀ j c, inSub pos j = true → j ≠ pos → (c = 2 * j + 1 ∨ c = 2 * j + 2) →
      c < heap.length → heap.getD j 0 ≤ heap.getD c 0) :
    heapOnSub (heapq.siftup heap pos) pos := by
  have he := siftupAux_pos heap pos hpos
  have hOn := siftupAux_heap heap pos hpos hpre
  have helen : (heapq.siftupAux heap pos).2 < (heapq.siftupAux heap pos).1.length := by
    rw [siftupAux_length]
    exact he.2.1
  show heapOnSub (heapq.siftdown ((heapq.siftupAux heap pos).1.set
      (heapq.siftupAux heap pos).2 (heap.getD pos 0)) pos (heapq.siftupAux heap pos).2) pos
  rw [heapq.siftdown]
  rw [getD_set_self _ _ _ helen]
  refine siftdownAux_heap pos _ _ _ (by simpa using helen) he.1 ?_ ?_ ?_
  · intro j c hj hc hclen hje hce
    have hclen' : c < heap.length := by
      have := hclen
      rw [List.length_set, siftupAux_length] at this
      exact this
    rw [getD_set_ne _ _ _ _ hje, getD_set_ne _ _ _ _ hce]
    refine hOn j c hj hc ?_
    rw [siftupAux_length]
    exact hclen'
  · intro c hc hclen
    have hclen' : c < heap.length := by
      have := hclen
      rw [List.length_set, siftupAux_length] at this
      exact this
    have hle := he.2.2
    rcases hc with hh | hh <;> omega
  · intro _ c hc hclen
    have hclen' : c < heap.length := by
      have := hclen
      rw [List.length_set, siftupAux_length] at this
      exact this
    have hle := he.2.2
    rcases hc with hh | hh <;> omega

theorem heapifyAux_length : ∀ (i : Nat) (heap : List Int),
    (heapq.heapifyAux heap i).length = heap.length := by
  intro i
  induction i with
  | zero => intro heap; rfl
  | succ n ih =>
    intro heap
    show (heapq.heapifyAux (heapq.siftup heap n) n).length = heap.length
    rw [ih, siftup_length]

theorem heapifyAux_cnt : ∀ (i : Nat) (heap : List Int), 2 * i ≤ heap.length → ∀ x,
    cnt x (heapq.heapifyAux heap i) = cnt x heap := by
  intro i
  induction i with
  | zero => intro heap _ x; rfl
  | succ n ih =>
    intro heap h x
    show cnt x (heapq.heapifyAux (heapq.siftup heap n) n) = cnt x heap
    rw [ih _ (by rw [siftup_length]; omega) x, siftup_cnt heap n (by omega) x]

theorem heapify_perm (l : List Int) : (heapq.heapify l).Perm l := by
  refine perm_of_cnt_eq fun x => ?_
  rw [heapq.heapify]
  exact heapifyAux_cnt (l.length / 2) l (by omega) x

theorem heapFromIdx_succ (i : Nat) (heap : List Int) (hlen : 2 * i + 2 ≤ heap.length)
    (hfrom : heapFromIdx heap (i + 1)) : heapFromIdx (heapq.siftup heap i) i := by
  have hpos : i < heap.length := by omega
  have hpre : ∀ j c, inSub i j = true → j ≠ i → (c = 2 * j + 1 ∨ c = 2 * j + 2) →
      c < heap.length → heap.getD j 0 ≤ heap.getD c 0 := by
    intro j c hj hji hc hclen
    have := inSub_le i j hj
    exact hfrom j c (by omega) hc hclen
  have hOn := siftup_heapOnSub heap i hpos hpre
  intro j d hij hd hdlen
  have hdlen' : d < heap.length := by
    rw [siftup_length] at hdlen
    exact hdlen
  by_cases hsub : inSub i j = true
  · refine hOn j d hsub hd ?_
    rw [siftup_length]
    exact hdlen'
  · have hsubF : inSub i j = false := by
      revert hsub
      cases inSub i j <;> simp
    have hji : j ≠ i := by
      intro he
      rw [he, inSub_self] at hsubF
      exact Bool.noConfusion hsubF
    have hd' : 2 * j + 1 ≤ d := by rcases hd with hh | hh <;> omega
    have hdF : inSub i d = false := notSub_child i j d hd hsubF (by omega)
    rw [siftup_frame heap i hpos j hsubF, siftup_frame heap i hpos d hdF]
    exact hfrom j d (by omega) hd hdlen'

theorem heapifyAux_sound : ∀ (i : Nat) (heap : List Int), 2 * i ≤ heap.length →
    heapFromIdx heap i → heapFromIdx (heapq.heapifyAux heap i) 0 := by
  intro i
  induction i with
  | zero =>
    intro heap _ hfrom
    exact hfrom
  | succ n ih =>
    intro heap hlen hfrom
    show heapFromIdx (heapq.heapifyAux (heapq.siftup heap n) n) 0
    refine ih _ ?_ ?_
    · rw [siftup_length]
      omega
    · exact heapFromIdx_succ n heap (by omega) hfrom

theorem heapify_heapFromIdx (l : List Int) : heapFromIdx (heapq.heapify l) 0 := by
  rw [heapq.heapify]
  refine heapifyAux_sound (l.length / 2) l (by omega) ?_
  intro j c hj hc hclen
  have hc' : 2 * j + 1 ≤ c := by rcases hc with hh | hh <;> omega
  omega

theorem heapify_isMinHeap (l : List Int) : IsMinHeap (heapq.heapify l) := by
  have h := heapify_heapFromIdx l
  intro i
  constructor
  · intro h1
    exact h i (2 * i + 1) (Nat.zero_le i) (Or.inl rfl) h1
  · intro h1
    exact h i (2 * i + 2) (Nat.zero_le i) (Or.inr rfl) h1

theorem siftupAux_132 : heapq.siftupAux [1, 3, 2] 0 = ([2, 3, 2], 2) := by
  rw [heapq.siftupAux]
  norm_num
  rw [heapq.siftupAux]
  norm_num

theorem siftdownAux_132 : heapq.siftdownAux 0 1 [2, 3, 1] 2 = [1, 3, 2] := by
  rw [heapq.siftdownAux]
  norm_num
  rw [heapq.siftdownAux]
  norm_num

theorem heapify_132 : heapq.heapify [1, 3, 2] = [1, 3, 2] := by
  show heapq.heapifyAux [1, 3, 2] 1 = [1, 3, 2]
  show heapq.siftup [1, 3, 2] 0 = [1, 3, 2]
  show heapq.siftdown ((heapq.siftupAux [1, 3, 2] 0).1.set (heapq.siftupAux [1, 3, 2] 0).2
      (([1, 3, 2] : List Int).getD 0 0)) 0 (heapq.siftupAux [1, 3, 2] 0).2 = [1, 3, 2]
  rw [siftupAux_132]
  show heapq.siftdown [2, 3, 1] 0 2 = [1, 3, 2]
  rw [heapq.siftdown]
  show heapq.siftdownAux 0 1 [2, 3, 1] 2 = [1, 3, 2]
  exact siftdownAux_132

theorem read_write_self (σ : PyMem) (r : Nat) (v : PySeq) : (σ.write r v).read r = v := by
  simp [PyMem.read, PyMem.write]

theorem read_write_ne (σ : PyMem) (r j : Nat) (v : PySeq) (h : j ≠ r) :
    (σ.write r v).read j = σ.read j := by
  simp [PyMem.read, PyMem.write, h]

theorem write_next (σ : PyMem) (r : Nat) (v : PySeq) : (σ.write r v).next = σ.next := rfl

theorem alloc_read_old (σ : PyMem) (v : PySeq) (j : Nat) (h : j ≠ σ.next) :
    (σ.alloc v).1.read j = σ.read j := by
  simp [PyMem.read, PyMem.alloc, h]

theorem alloc_read_new (σ : PyMem) (v : PySeq) : (σ.alloc v).1.read (σ.alloc v).2 = v := by
  simp [PyMem.read, PyMem.alloc]

theorem alloc_next (σ : PyMem) (v : PySeq) : (σ.alloc v).1.next = σ.next + 1 := rfl

theorem alloc_ref (σ : PyMem) (v : PySeq) : (σ.alloc v).2 = σ.next := rfl

/-- Store growth: the new store has at least the same frontier and agrees with
the old one on every previously allocated reference. -/
def MemExtends (σ σ' : PyMem) : Prop :=
  σ.next ≤ σ'.next ∧ ∀ j, j < σ.next → σ'.read j = σ.read j

theorem MemExtends.rfl' (σ : PyMem) : MemExtends σ σ :=
  ⟨le_refl _, fun _ _ => rfl⟩

theorem MemExtends.trans' {σ₁ σ₂ σ₃ : PyMem} (h1 : MemExtends σ₁ σ₂)
    (h2 : MemExtends σ₂ σ₃) : MemExtends σ₁ σ₃ := by
  refine ⟨le_trans h1.1 h2.1, fun j hj => ?_⟩
  rw [h2.2 j (lt_of_lt_of_le hj h1.1), h1.2 j hj]

theorem extends_alloc (σ : PyMem) (v : PySeq) : MemExtends σ (σ.alloc v).1 := by
  refine ⟨by simp [alloc_next], fun j hj => alloc_read_old σ v j (by omega)⟩

theorem selLoopS_frame (dataR resR : Nat) (hne : dataR ≠ resR) :
    ∀ (σ : PyMem), ((selLoopS dataR resR hne σ).next = σ.next ∧
      ∀ j, j ≠ dataR → j ≠ resR → (selLoopS dataR resR hne σ).read j = σ.read j) := by
  intro σ
  induction σ using selLoopS.induct dataR resR hne with
  | case1 σ hm =>
    rw [selLoopS]
    simp only [dif_pos hm]
    exact ⟨by trivial, fun _ _ _ => by trivial⟩
  | case2 σ hm m σ1 σ2 ih =>
    rw [selLoopS]
    simp only [dif_neg hm]
    refine ⟨?_, ?_⟩
    · rw [ih.1]
      rfl
    · intro j hjd hjr
      rw [ih.2 j hjd hjr, read_write_ne _ _ _ _ hjd, read_write_ne _ _ _ _ hjr]

theorem selectionSortS_extends (σ : PyMem) (input : Nat) :
    MemExtends σ (selectionSortS σ input).1 := by
  have hf := selLoopS_frame σ.next (σ.next + 1) (by omega)
    (((σ.alloc ⟨SKind.listK, (σ.read input).elems⟩).1.alloc ⟨SKind.listK, []⟩).1)
  constructor
  · show σ.next ≤ (selectionSortS σ input).1.next
    have h1 : (selectionSortS σ input).1.next =
        (((σ.alloc ⟨SKind.listK, (σ.read input).elems⟩).1.alloc ⟨SKind.listK, []⟩).1).next :=
      hf.1
    rw [h1]
    show σ.next ≤ σ.next + 1 + 1
    omega
  · intro j hj
    have h2 : (selectionSortS σ input).1.read j =
        (((σ.alloc ⟨SKind.listK, (σ.read input).elems⟩).1.alloc ⟨SKind.listK, []⟩).1).read j :=
      hf.2 j (by omega) (by omega)
    rw [h2]
    rw [alloc_read_old _ _ j (by show j ≠ σ.next + 1; omega)]
    exact alloc_read_old _ _ j (by omega)

theorem heapSortS_extends (σ : PyMem) (input : Nat) :
    MemExtends σ (heapSortS σ input).1 := by
  constructor
  · show σ.next ≤ σ.next + 1
    omega
  · intro j hj
    show (heapifyS (σ.alloc ⟨SKind.listK, (σ.read input).elems⟩).1
        (σ.alloc ⟨SKind.listK, (σ.read input).elems⟩).2).read j = σ.read j
    rw [heapifyS]
    rw [read_write_ne _ _ _ _ (by show j ≠ σ.next; omega)]
    exact alloc_read_old _ _ j (by omega)

theorem quickSortS_extends : ∀ (fuel : Nat) (σ : PyMem) (r : Nat),
    MemExtends σ (quickSortS fuel σ r).1 := by
  intro fuel
  induction fuel with
  | zero =>
    intro σ r
    exact MemExtends.rfl' σ
  | succ n ih =>
    intro σ r
    rw [quickSortS]
    by_cases hlen : ((σ.read r).elems.length ≤ 1)
    · simp only [if_pos hlen]
      exact MemExtends.rfl' σ
    · simp only [if_neg hlen]
      exact (((((extends_alloc σ _).trans' (extends_alloc _ _)).trans'
        (extends_alloc _ _)).trans' (ih _ _)).trans' (ih _ _)).trans' (extends_alloc _ _)

theorem mergeS_extends (σ : PyMem) (lR rR : Nat) : MemExtends σ (mergeS σ lR rR).1 := by
  constructor
  · show σ.next ≤ σ.next + 1
    omega
  · intro j hj
    show ((σ.alloc ⟨SKind.listK, []⟩).1.write (σ.alloc ⟨SKind.listK, []⟩).2 _).read j = σ.read j
    rw [read_write_ne _ _ _ _ (by show j ≠ σ.next; omega)]
    exact alloc_read_old _ _ j (by omega)

theorem mergeSortS_extends : ∀ (fuel : Nat) (σ : PyMem) (r : Nat),
    MemExtends σ (mergeSortS fuel σ r).1 := by
  intro fuel
  induction fuel with
  | zero =>
    intro σ r
    exact MemExtends.rfl' σ
  | succ n ih =>
    intro σ r
    rw [mergeSortS]
    by_cases hlen : ((σ.read r).elems.length ≤ 1)
    · simp only [if_pos hlen]
      exact extends_alloc σ _
    · simp only [if_neg hlen]
      exact ((((extends_alloc σ _).trans' (extends_alloc _ _)).trans'
        (ih _ _)).trans' (ih _ _)).trans' (mergeS_extends _ _ _)

theorem quickSortS_small (fuel : Nat) (σ : PyMem) (r : Nat)
    (h : (σ.read r).elems.length ≤ 1) : quickSortS (fuel + 1) σ r = (σ, r) := by
  rw [quickSortS]
  simp only [if_pos h]

theorem mergeSortS_small (fuel : Nat) (σ : PyMem) (r : Nat)
    (h : (σ.read r).elems.length ≤ 1) :
    mergeSortS (fuel + 1) σ r = σ.alloc ⟨SKind.listK, (σ.read r).elems⟩ := by
  rw [mergeSortS]
  simp only [if_pos h]

theorem strategy_perm (st : IStrategy) (l : List Int) : (st.sorting_algorithm l).Perm l := by
  cases st with
  | selection => exact sel_perm l
  | heap => exact heapify_perm l
  | quick => exact quick_perm l
  | merge => exact msort_perm l

theorem strategy_sorted (st : IStrategy) (hne : st ≠ IStrategy.heap) (l : List Int) :
    (st.sorting_algorithm l).Pairwise (· ≤ ·) := by
  cases st with
  | selection => exact sel_sorted l
  | heap => exact absurd rfl hne
  | quick => exact quick_sorted l
  | merge => exact msort_sorted l

theorem sel_eval_21 : SelectionSort.sorting_algorithm [2, 1] = [1, 2] :=
  sorted_perm_unique ((sel_perm _).trans (by decide)) (sel_sorted _) (by decide)

theorem sel_eval_54 : SelectionSort.sorting_algorithm [5, 4] = [4, 5] :=
  sorted_perm_unique ((sel_perm _).trans (by decide)) (sel_sorted _) (by decide)

theorem quick_eval_312 : QuickSort.sorting_algorithm [3, 1, 2] = [1, 2, 3] :=
  sorted_perm_unique ((quick_perm _).trans (by decide)) (quick_sorted _) (by decide)

theorem sort_some_truthy (s : Sorter) (l : List Int) (hl : l ≠ []) :
    s.sort (some l) = some (s.strategy.sorting_algorithm l,
      ⟨s.strategy, some (s.strategy.sorting_algorithm l)⟩) := by
  simp [Sorter.sort, hl]

theorem sort_none_of_data (s : Sorter) (d : List Int) (hd : s.data = some d) :
    s.sort none = some (s.strategy.sorting_algorithm d,
      ⟨s.strategy, some (s.strategy.sorting_algorithm d)⟩) := by
  simp [Sorter.sort, hd]

theorem sort_empty_arg (s : Sorter) : s.sort (some []) = s.sort none := by
  simp [Sorter.sort]

/-! Part 3: the claims. -/

/-- C1: for every input sequence of numbers, `SelectionSort.sorting_algorithm`,
`QuickSort.sorting_algorithm` and `MergeSort.sorting_algorithm` each return a
sequence holding exactly the same multiset of elements as the input
(a permutation) that is ordered non-decreasingly (every adjacent pair `a, b`
satisfies `a ≤ b`). -/
theorem claim_C1 (l : List Int) :
    ((SelectionSort.sorting_algorithm l).Perm l ∧
      List.Chain' (· ≤ ·) (SelectionSort.sorting_algorithm l)) ∧
    ((QuickSort.sorting_algorithm l).Perm l ∧
      List.Chain' (· ≤ ·) (QuickSort.sorting_algorithm l)) ∧
    ((MergeSort.sorting_algorithm l).Perm l ∧
      List.Chain' (· ≤ ·) (MergeSort.sorting_algorithm l)) :=
  ⟨⟨sel_perm l, (sel_sorted l).chain'⟩, ⟨quick_perm l, (quick_sorted l).chain'⟩,
    ⟨msort_perm l, (msort_sorted l).chain'⟩⟩

/-- C2: for every input sequence, `HeapSort.sorting_algorithm` returns a
permutation of the input satisfying the binary min-heap invariant (the
element at index `i` is at most the elements at indices `2 i + 1` and
`2 i + 2` when those exist), and the result is not required to be fully
sorted: on the input `[1, 3, 2]` the result is not in non-decreasing
order. -/
theorem claim_C2 :
    (∀ l : List Int, (HeapSort.sorting_algorithm l).Perm l ∧
      IsMinHeap (HeapSort.sorting_algorithm l)) ∧
    ¬ List.Chain' (· ≤ ·) (HeapSort.sorting_algorithm [1, 3, 2]) := by
  constructor
  · intro l
    exact ⟨heapify_perm l, heapify_isMinHeap l⟩
  · show ¬ List.Chain' (· ≤ ·) (heapq.heapify [1, 3, 2])
    rw [heapify_132]
    intro hch
    rw [List.chain'_cons, List.chain'_cons] at hch
    obtain ⟨h1, h2, h3⟩ := hch
    omega

/-- C3 counterexample: a `Sorter` holding the Heap strategy, after the
successful call `sort()` on stored data `[1, 3, 2]`, stores `[1, 3, 2]`
itself, which is not in non-decreasing order — so the stored data is not
the sorted permutation of the input used for the call, refuting the claim
as stated (which includes HeapSort). -/
theorem claim_C3_counterexample :
    Sorter.sort ⟨IStrategy.heap, some [1, 3, 2]⟩ none =
      some ([1, 3, 2], ⟨IStrategy.heap, some [1, 3, 2]⟩) ∧
    ¬ List.Chain' (· ≤ ·) ([1, 3, 2] : List Int) := by
  constructor
  · show some (heapq.heapify [1, 3, 2],
        (⟨IStrategy.heap, some (heapq.heapify [1, 3, 2])⟩ : Sorter)) = _
    rw [heapify_132]
  · intro hch
    rw [List.chain'_cons, List.chain'_cons] at hch
    obtain ⟨h1, h2, h3⟩ := hch
    omega

/-- C3 amended: for every `Sorter` holding one of the Selection, Quick or
Merge strategies (Heap excluded) and every successful `sort` call, the
stored data afterwards is exactly the returned result, which is a
non-decreasingly ordered permutation of the input used for that call (the
truthy argument, or the previously stored data otherwise). -/
theorem claim_C3_amended (s : Sorter) (arg : Option (List Int)) (res : List Int) (s' : Sorter)
    (hstrat : s.strategy ≠ IStrategy.heap) (h : s.sort arg = some (res, s')) :
    s'.data = some res ∧ List.Chain' (· ≤ ·) res ∧
      ∃ input, ((arg = some input ∧ input ≠ []) ∨
        ((arg = none ∨ arg = some []) ∧ s.data = some input)) ∧ res.Perm input := by
  have hfin : ∀ d : List Int,
      some (s.strategy.sorting_algorithm d,
        (⟨s.strategy, some (s.strategy.sorting_algorithm d)⟩ : Sorter)) = some (res, s') →
      s'.data = some res ∧ List.Chain' (· ≤ ·) res ∧ res.Perm d := by
    intro d hEq
    have h' := Option.some.inj hEq
    have h1 : s.strategy.sorting_algorithm d = res := congrArg Prod.fst h'
    have h2 : (⟨s.strategy, some (s.strategy.sorting_algorithm d)⟩ : Sorter) = s' :=
      congrArg Prod.snd h'
    subst h1
    rw [← h2]
    exact ⟨rfl, (strategy_sorted s.strategy hstrat d).chain', strategy_perm s.strategy d⟩
  cases arg with
  | none =>
    cases hd : s.data with
    | none =>
      simp [Sorter.sort, hd] at h
    | some d =>
      rw [sort_none_of_data s d hd] at h
      obtain ⟨ha, hb, hc⟩ := hfin d h
      exact ⟨ha, hb, d, Or.inr ⟨Or.inl rfl, rfl⟩, hc⟩
  | some l =>
    by_cases hl : l = []
    · subst hl
      rw [sort_empty_arg] at h
      cases hd : s.data with
      | none =>
        simp [Sorter.sort, hd] at h
      | some d =>
        rw [sort_none_of_data s d hd] at h
        obtain ⟨ha, hb, hc⟩ := hfin d h
        exact ⟨ha, hb, d, Or.inr ⟨Or.inr rfl, rfl⟩, hc⟩
    · rw [sort_some_truthy s l hl] at h
      obtain ⟨ha, hb, hc⟩ := hfin l h
      exact ⟨ha, hb, l, Or.inl ⟨rfl, hl⟩, hc⟩

/-- C3 amended, witness: a Quick-strategy `Sorter` with stored data
`[3, 1, 2]`, after `sort()`, stores exactly the sorted permutation
`[1, 2, 3]`. -/
theorem claim_C3_amended_witness :
    (Sorter.strategy ⟨IStrategy.quick, some [3, 1, 2]⟩ ≠ IStrategy.heap) ∧
    Sorter.sort ⟨IStrategy.quick, some [3, 1, 2]⟩ none =
      some ([1, 2, 3], ⟨IStrategy.quick, some [1, 2, 3]⟩) ∧
    ((⟨IStrategy.quick, some [1, 2, 3]⟩ : Sorter).data = some [1, 2, 3] ∧
      List.Chain' (· ≤ ·) ([1, 2, 3] : List Int) ∧
      ∃ input, (((none : Option (List Int)) = some input ∧ input ≠ []) ∨
        (((none : Option (List Int))= none ∨ (none : Option (List Int)) = some []) ∧
          (Sorter.data ⟨IStrategy.quick, some [3, 1, 2]⟩ = some input))) ∧
        ([1, 2, 3] : List Int).Perm input) := by
  have hsort : Sorter.sort ⟨IStrategy.quick, some [3, 1, 2]⟩ none =
      some ([1, 2, 3], ⟨IStrategy.quick, some [1, 2, 3]⟩) := by
    show some (QuickSort.sorting_algorithm [3, 1, 2],
        (⟨IStrategy.quick, some (QuickSort.sorting_algorithm [3, 1, 2])⟩ : Sorter)) = _
    rw [quick_eval_312]
  exact ⟨by decide, hsort,
    claim_C3_amended ⟨IStrategy.quick, some [3, 1, 2]⟩ none [1, 2, 3]
      ⟨IStrategy.quick, some [1, 2, 3]⟩ (by decide) hsort⟩

/-- C4 counterexample: running the merge loop on elements that compare
equal but are distinguishable (pairs ordered by their first component), the
element taken first on a tie is the one from the right sequence, not the
left one: merging `[(1, 0)]` (left) with `[(1, 1)]` (right) appends the
right element `(1, 1)` before the left element `(1, 0)`, refuting "the left
element wins the tie (is appended before the right one)". -/
theorem claim_C4_counterexample :
    MergeSort.mergeLoop (fun p q : Int × Int => decide (p.1 < q.1)) [(1, 0)] [(1, 1)] 0 0 [] =
      [(1, 1), (1, 0)] ∧
    ([(1, 1), (1, 0)] : List (Int × Int)) ≠ [(1, 0), (1, 1)] := by
  constructor
  · rw [MergeSort.mergeLoop]
    norm_num
    rw [MergeSort.mergeLoop]
    norm_num
  · decide

/-- C4 amended: `MergeSort.merge` repeatedly compares the current heads of
the two sequences, taking the element from the left iff left-head is
strictly less than right-head and otherwise (including on equal heads, so
the right element wins ties) from the right, appending the remainder of the
non-exhausted sequence when one is exhausted — i.e. the two-index loop
computes exactly the recursive specification `mergeSpec`, for the numeric
comparison and for an arbitrary comparison alike. -/
theorem claim_C4_amended :
    (∀ left right : List Int,
      MergeSort.merge left right = mergeSpec (fun x y => decide (x < y)) left right) ∧
    (∀ (α : Type) (lt : α → α → Bool) (left right : List α),
      MergeSort.mergeLoop lt left right 0 0 [] = mergeSpec lt left right) := by
  constructor
  · exact merge_eq_mergeSpec
  · intro α lt left right
    rw [mergeLoop_eq]
    simp

/-- C5: `Sorter.sort` with a truthy (nonempty) argument replaces the stored
data and sorts it, storing and returning the strategy's result; with no
argument (or an empty, falsy one) it sorts the previously stored data — in
particular a call with an empty sequence behaves exactly like a call with no
argument, sorting the stored data rather than the empty sequence. -/
theorem claim_C5 (s : Sorter) :
    (∀ l : List Int, l ≠ [] →
      s.sort (some l) = some (s.strategy.sorting_algorithm l,
        ⟨s.strategy, some (s.strategy.sorting_algorithm l)⟩)) ∧
    (∀ d : List Int, s.data = some d →
      s.sort none = some (s.strategy.sorting_algorithm d,
        ⟨s.strategy, some (s.strategy.sorting_algorithm d)⟩)) ∧
    s.sort (some []) = s.sort none := by
  exact ⟨fun l hl => sort_some_truthy s l hl, fun d hd => sort_none_of_data s d hd,
    sort_empty_arg s⟩

/-- C5 witness: a Selection `Sorter` storing `[5, 4]`; `sort([2, 1])`
replaces and sorts the argument, `sort()` sorts the stored data, and
`sort([])` equals `sort()`. -/
theorem claim_C5_witness :
    ([2, 1] : List Int) ≠ [] ∧
    (⟨IStrategy.selection, some [5, 4]⟩ : Sorter).sort (some [2, 1]) =
      some ([1, 2], ⟨IStrategy.selection, some [1, 2]⟩) ∧
    (⟨IStrategy.selection, some [5, 4]⟩ : Sorter).sort none =
      some ([4, 5], ⟨IStrategy.selection, some [4, 5]⟩) ∧
    (⟨IStrategy.selection, some [5, 4]⟩ : Sorter).sort (some []) =
      (⟨IStrategy.selection, some [5, 4]⟩ : Sorter).sort none := by
  refine ⟨by decide, ?_, ?_, (claim_C5 ⟨IStrategy.selection, some [5, 4]⟩).2.2⟩
  · rw [(claim_C5 ⟨IStrategy.selection, some [5, 4]⟩).1 [2, 1] (by decide)]
    show some (SelectionSort.sorting_algorithm [2, 1],
        (⟨IStrategy.selection, some (SelectionSort.sorting_algorithm [2, 1])⟩ : Sorter)) = _
    rw [sel_eval_21]
  · rw [(claim_C5 ⟨IStrategy.selection, some [5, 4]⟩).2.1 [5, 4] rfl]
    show some (SelectionSort.sorting_algorithm [5, 4],
        (⟨IStrategy.selection, some (SelectionSort.sorting_algorithm [5, 4])⟩ : Sorter)) = _
    rw [sel_eval_54]

/-- C6: calling `sort` with no argument (or a falsy empty one) on a
`Sorter` whose data buffer was never supplied raises an exception inside
the strategy (`list(None)` / `len(None)`), modelled as the error result
`none` — the precondition violation is signaled, not silently handled,
whatever the strategy. -/
theorem claim_C6 (st : IStrategy) :
    (Sorter.mk st none).sort none = none ∧ (Sorter.mk st none).sort (some []) = none := by
  constructor
  · rfl
  · rw [sort_empty_arg]
    rfl

/-- C7: sorting any stored data with the Selection strategy and with the
Quick strategy produce the same output, and likewise for Merge: the choice
among Selection, Quick and Merge never changes the returned sequence.
Moreover, in the spec's scenario — a Sorter whose stored data is the result
of a Selection sort, reassigned to the Quick strategy — the second `sort()`
call returns that same sorted output unchanged. -/
theorem claim_C7 (l : List Int) :
    QuickSort.sorting_algorithm l = SelectionSort.sorting_algorithm l ∧
    MergeSort.sorting_algorithm l = SelectionSort.sorting_algorithm l ∧
    Sorter.sort ⟨IStrategy.quick, some (SelectionSort.sorting_algorithm l)⟩ none =
      some (SelectionSort.sorting_algorithm l,
        ⟨IStrategy.quick, some (SelectionSort.sorting_algorithm l)⟩) := by
  refine ⟨quick_eq_sel l, msort_eq_sel l, ?_⟩
  show some (QuickSort.sorting_algorithm (SelectionSort.sorting_algorithm l),
      (⟨IStrategy.quick,
        some (QuickSort.sorting_algorithm (SelectionSort.sorting_algorithm l))⟩ : Sorter)) = _
  rw [quick_eq_sel, sel_idem]

/-- C8: for the Selection, Quick and Merge strategies sorting is idempotent,
and for all four strategies (Heap included) the boundary cases hold: the
empty sequence sorts to the empty sequence and a one-element sequence sorts
to itself. -/
theorem claim_C8 (l : List Int) (x : Int) :
    SelectionSort.sorting_algorithm (SelectionSort.sorting_algorithm l) =
      SelectionSort.sorting_algorithm l ∧
    QuickSort.sorting_algorithm (QuickSort.sorting_algorithm l) =
      QuickSort.sorting_algorithm l ∧
    MergeSort.sorting_algorithm (MergeSort.sorting_algorithm l) =
      MergeSort.sorting_algorithm l ∧
    SelectionSort.sorting_algorithm [] = [] ∧ SelectionSort.sorting_algorithm [x] = [x] ∧
    HeapSort.sorting_algorithm [] = [] ∧ HeapSort.sorting_algorithm [x] = [x] ∧
    QuickSort.sorting_algorithm [] = [] ∧ QuickSort.sorting_algorithm [x] = [x] ∧
    MergeSort.sorting_algorithm [] = [] ∧ MergeSort.sorting_algorithm [x] = [x] :=
  ⟨sel_idem l, quick_idem l, msort_idem l, sel_nil, sel_single x, heapify_nil,
    heapify_single x, quick_nil, quick_single x, msort_nil, msort_single x⟩

/-- C9: no strategy mutates the caller's input sequence: in the store
model, running any of the four store-level sorting algorithms on the object
at reference `r` leaves that object's contents untouched (each strategy
either copies the input before its in-place work, or only reads it and
builds new lists). -/
theorem claim_C9 (σ : PyMem) (r : Nat) (fuel : Nat) (hr : r < σ.next) :
    (selectionSortS σ r).1.read r = σ.read r ∧
    (heapSortS σ r).1.read r = σ.read r ∧
    (quickSortS fuel σ r).1.read r = σ.read r ∧
    (mergeSortS fuel σ r).1.read r = σ.read r :=
  ⟨(selectionSortS_extends σ r).2 r hr, (heapSortS_extends σ r).2 r hr,
    (quickSortS_extends fuel σ r).2 r hr, (mergeSortS_extends fuel σ r).2 r hr⟩

/-- C9 witness: on a store holding the list `[2, 5, 1]` at reference 0,
each strategy leaves that object unchanged. -/
theorem claim_C9_witness :
    0 < ((mem0.alloc ⟨SKind.listK, [2, 5, 1]⟩).1).next ∧
    ((selectionSortS (mem0.alloc ⟨SKind.listK, [2, 5, 1]⟩).1 0).1.read 0 =
        (mem0.alloc ⟨SKind.listK, [2, 5, 1]⟩).1.read 0 ∧
      (heapSortS (mem0.alloc ⟨SKind.listK, [2, 5, 1]⟩).1 0).1.read 0 =
        (mem0.alloc ⟨SKind.listK, [2, 5, 1]⟩).1.read 0 ∧
      (quickSortS 4 (mem0.alloc ⟨SKind.listK, [2, 5, 1]⟩).1 0).1.read 0 =
        (mem0.alloc ⟨SKind.listK, [2, 5, 1]⟩).1.read 0 ∧
      (mergeSortS 4 (mem0.alloc ⟨SKind.listK, [2, 5, 1]⟩).1 0).1.read 0 =
        (mem0.alloc ⟨SKind.listK, [2, 5, 1]⟩).1.read 0) :=
  ⟨by decide, claim_C9 (mem0.alloc ⟨SKind.listK, [2, 5, 1]⟩).1 0 4 (by decide)⟩

/-- C10: on inputs of length 0 or 1, `QuickSort.sorting_algorithm` returns
the very same sequence object unchanged (so a tuple input stays that tuple,
of its original kind), while `MergeSort.sorting_algorithm` returns a fresh
list object holding a copy of the elements. -/
theorem claim_C10 (σ : PyMem) (r : Nat) (fuel : Nat) (hr : r < σ.next)
    (hlen : (σ.read r).elems.length ≤ 1) :
    quickSortS (fuel + 1) σ r = (σ, r) ∧
    (mergeSortS (fuel + 1) σ r).2 ≠ r ∧
    (mergeSortS (fuel + 1) σ r).1.read (mergeSortS (fuel + 1) σ r).2 =
      ⟨SKind.listK, (σ.read r).elems⟩ ∧
    (mergeSortS (fuel + 1) σ r).1.read r = σ.read r := by
  refine ⟨quickSortS_small fuel σ r hlen, ?_, ?_, ?_⟩
  · rw [mergeSortS_small fuel σ r hlen]
    show σ.next ≠ r
    omega
  · rw [mergeSortS_small fuel σ r hlen]
    exact alloc_read_new σ _
  · rw [mergeSortS_small fuel σ r hlen]
    exact alloc_read_old σ _ r (by omega)

/-- C10 witness: a store holding the tuple `(7,)` at reference 0; Quick
returns reference 0 itself with the store untouched (the tuple keeps its
kind), Merge returns a fresh list object with the same elements. -/
theorem claim_C10_witness :
    0 < ((mem0.alloc ⟨SKind.tupleK, [7]⟩).1).next ∧
    (((mem0.alloc ⟨SKind.tupleK, [7]⟩).1.read 0).elems.length ≤ 1) ∧
    (quickSortS 1 (mem0.alloc ⟨SKind.tupleK, [7]⟩).1 0 =
        ((mem0.alloc ⟨SKind.tupleK, [7]⟩).1, 0) ∧
      (mergeSortS 1 (mem0.alloc ⟨SKind.tupleK, [7]⟩).1 0).2 ≠ 0 ∧
      (mergeSortS 1 (mem0.alloc ⟨SKind.tupleK, [7]⟩).1 0).1.read
          (mergeSortS 1 (mem0.alloc ⟨SKind.tupleK, [7]⟩).1 0).2 =
        ⟨SKind.listK, ((mem0.alloc ⟨SKind.tupleK, [7]⟩).1.read 0).elems⟩ ∧
      (mergeSortS 1 (mem0.alloc ⟨SKind.tupleK, [7]⟩).1 0).1.read 0 =
        (mem0.alloc ⟨SKind.tupleK, [7]⟩).1.read 0) :=
  ⟨by decide, by decide, claim_C10 (mem0.alloc ⟨SKind.tupleK, [7]⟩).1 0 0 (by decide) (by decide)⟩
